import Mathlib

/-!
# Verification of the `batl` resource manager core

A shallow embedding, in Lean 4, of the core of the `batl` multi-repository
manager (packages/batl/src): the resource-name codec (`resource.rs`), the
repository resolver (`resource/repository.rs`), the configuration-schema
migrator, the link manager's ignore-file editing, and the transitive
dependency builder (`resource/summary.rs`).

Rust strings are embedded as `List Char`; `PathBuf` as a list of components
plus an absoluteness flag; `HashMap`/`HashSet` as association lists / lists
with set-style insertion; fallible code (`EyreResult`) as `Except RErr`.
Filesystem access is abstracted into an explicit context (`Ctx`) holding the
storage roots and oracles for the reads the code performs.
-/

namespace Batl

/-- Rust strings, embedded as lists of characters. -/
abbrev Str := List Char

/-- `u8::is_ascii_digit` / `char::is_ascii_digit`. -/
def isAsciiDigit (c : Char) : Bool := c.isDigit

/-- ASCII fragment of Rust `char::is_alphanumeric`.  The Rust function is
Unicode-aware; this embedding covers the ASCII subset, and theorems that
quantify over arbitrary input restrict that input to ASCII accordingly. -/
def isAlphanumericAscii (c : Char) : Bool := c.isAlpha || c.isDigit

/-- Characters allowed in a semver pre-release / build identifier
(`is_ascii_alphanumeric` or `-`, per the `semver` crate). -/
def isIdentChar (c : Char) : Bool := c.isAlpha || c.isDigit || c = '-'

/-- Errors produced by `error.rs` (an `eyre::Report` carries only a message;
we model each `err_*` constructor as a variant, with its string payloads).
`semverError` stands for a propagated `semver::Error`; `outOfFuel` is an
artifact of embedding the source's unbounded recursion with explicit fuel
and corresponds to no behavior of the source. -/
inductive RErr where
  | battalionNotSetup
  | resourceDoesNotExist (resource : Str)
  | resourceAlreadyExists
  | inputRequestedIsInvalid (specifics reason : Str)
  | resourceDoesNotHaveThing (resource thing : Str)
  | actionImpossibleWhileCondition (action condition : Str)
  | semverError
  | outOfFuel
deriving DecidableEq

/-! ## semver `Version`

Embedding of `semver::Version` as used by the code: `major`/`minor`/`patch`
numeric components plus the raw pre-release and build-metadata strings
(the crate's `Prerelease` and `BuildMetadata` wrap the raw string). -/

structure Version where
  major : Nat
  minor : Nat
  patch : Nat
  pre : Str
  build : Str
deriving DecidableEq

/-- `semver::Version::new` (empty pre-release and build metadata). -/
def Version.new (major minor patch : Nat) : Version :=
  ⟨major, minor, patch, [], []⟩

/-- Numeric value of a digit string. -/
def digitsVal (ds : Str) : Nat := ds.foldl (fun a c => a * 10 + (c.toNat - 48)) 0

/-- `semver` numeric identifier for major/minor/patch: a non-empty digit
run, no leading zero, fitting in `u64`.  Returns the value and the rest. -/
def parseNumericIdent (s : Str) : Option (Nat × Str) :=
  let ds := s.takeWhile isAsciiDigit
  let rest := s.dropWhile isAsciiDigit
  if ds = [] then none
  else if ds.head? = some '0' ∧ 1 < ds.length then none
  else if 2 ^ 64 ≤ digitsVal ds then none
  else some (digitsVal ds, rest)

/-- Dot-separated identifier sequence of a pre-release (`noLeadingZeros =
true`: an all-digit identifier may not have a leading zero) or of build
metadata (`noLeadingZeros = false`).  Returns the raw consumed text and the
rest.  The fuel argument only discharges termination; `length s + 1` always
suffices. -/
def parseIdentsAux (noLeadingZeros : Bool) : Nat → Str → Option (Str × Str)
  | 0, _ => none
  | fuel + 1, s =>
    let id := s.takeWhile isIdentChar
    let rest := s.dropWhile isIdentChar
    if id = [] then none
    else if noLeadingZeros ∧ id.all isAsciiDigit ∧ id.head? = some '0' ∧ 1 < id.length
      then none
    else match rest with
      | '.' :: rest2 =>
        (parseIdentsAux noLeadingZeros fuel rest2).map
          (fun pr => (id ++ '.' :: pr.1, pr.2))
      | _ => some (id, rest)

def parseIdents (noLeadingZeros : Bool) (s : Str) : Option (Str × Str) :=
  parseIdentsAux noLeadingZeros (s.length + 1) s

/-- `semver::Version::parse`: `major.minor.patch`, optional `-pre`,
optional `+build`, nothing after. -/
def parseVersion (s : Str) : Option Version := do
  let (major, r1) ← parseNumericIdent s
  match r1 with
  | '.' :: r2 => do
    let (minor, r3) ← parseNumericIdent r2
    match r3 with
    | '.' :: r4 => do
      let (patch, r5) ← parseNumericIdent r4
      let (pre, r6) ← match r5 with
        | '-' :: r => parseIdents true r
        | _ => some (([] : Str), r5)
      let (build, r7) ← match r6 with
        | '+' :: r => parseIdents false r
        | _ => some (([] : Str), r6)
      if r7 = [] then some ⟨major, minor, patch, pre, build⟩ else none
    | _ => none
  | _ => none

/-- Decimal rendering of a natural number. -/
def natToStr (n : Nat) : Str := Nat.toDigits 10 n

/-- `Display for semver::Version`: `major.minor.patch[-pre][+build]`. -/
def Version.render (v : Version) : Str :=
  natToStr v.major ++ '.' :: natToStr v.minor ++ '.' :: natToStr v.patch
    ++ (if v.pre = [] then [] else '-' :: v.pre)
    ++ (if v.build = [] then [] else '+' :: v.build)

/-! ### `Ord for semver::Version`

The crate compares major, minor, patch, then the pre-release strings
(numeric identifiers numerically, numeric before alphanumeric, absence of a
pre-release greatest), then the build-metadata strings. -/

/-- Lexicographic comparison of two lists by an element comparator: the
shorter list is smaller when one is a prefix of the other.  This is the
loop shape of the crate's `Prerelease`/`BuildMetadata` `cmp`. -/
def listCmp (c : α → α → Ordering) : List α → List α → Ordering
  | [], [] => .eq
  | [], _ :: _ => .lt
  | _ :: _, [] => .gt
  | x :: xs, y :: ys => (c x y).then (listCmp c xs ys)

/-- Byte comparison of characters (`str` comparison is bytewise; on ASCII
this is code-point comparison). -/
def charCmp (c d : Char) : Ordering := compare c.toNat d.toNat

/-- Rust `str::cmp` (bytewise lexicographic), on ASCII text. -/
def strCmp : Str → Str → Ordering := listCmp charCmp

/-- One pre-release identifier against another: both numeric → compare by
length then text (no leading zeros, so this is numeric order); numeric
sorts below alphanumeric; otherwise text order. -/
def preIdentCmp (l r : Str) : Ordering :=
  match l.all isAsciiDigit, r.all isAsciiDigit with
  | true, true => (compare l.length r.length).then (strCmp l r)
  | true, false => .lt
  | false, true => .gt
  | false, false => strCmp l r

/-- `Ord for semver::Prerelease`: a version without pre-release compares
greater than one with; otherwise identifier-wise comparison. -/
def preCmp (x y : Str) : Ordering :=
  match x.isEmpty, y.isEmpty with
  | true, true => .eq
  | true, false => .gt
  | false, true => .lt
  | false, false => listCmp preIdentCmp (List.splitOn '.' x) (List.splitOn '.' y)

/-- One build identifier against another: both numeric → leading zeros
stripped, compare by length then text then original length
(`0 < 00 < 1 < 01 < 001 < 2`); numeric below alphanumeric; else text. -/
def buildIdentCmp (l r : Str) : Ordering :=
  match l.all isAsciiDigit, r.all isAsciiDigit with
  | true, true =>
    let l' := l.dropWhile (· = '0')
    let r' := r.dropWhile (· = '0')
    ((compare l'.length r'.length).then (strCmp l' r')).then (compare l.length r.length)
  | true, false => .lt
  | false, true => .gt
  | false, false => strCmp l r

/-- `Ord for semver::BuildMetadata`. -/
def buildCmp (x y : Str) : Ordering :=
  listCmp buildIdentCmp (List.splitOn '.' x) (List.splitOn '.' y)

/-- `Ord for semver::Version`. -/
def versionCmp (a b : Version) : Ordering :=
  (compare a.major b.major).then
    ((compare a.minor b.minor).then
      ((compare a.patch b.patch).then
        ((preCmp a.pre b.pre).then (buildCmp a.build b.build))))

/-- The boolean `≤` used to embed `Vec::sort` on versions. -/
def versionLe (a b : Version) : Bool := versionCmp a b ≠ Ordering.gt

/-! ### Lawfulness of `versionCmp`

The version order is a lexicographic composition; we show it oriented and
transitive (`Batteries.TransCmp`) so that "last element of the ascending
sort" provably means "maximum". -/

/-- Compare through a key function. -/
def keyCmp (f : α → β) (c : β → β → Ordering) (a b : α) : Ordering := c (f a) (f b)

/-- Lexicographic combination of two comparators on the same type. -/
def thenCmp (c d : α → α → Ordering) (a b : α) : Ordering := (c a b).then (d a b)

/-- Comparator on a sum: every `inl` below every `inr`. -/
def sumCmp (ca : α → α → Ordering) (cb : β → β → Ordering) :
    α ⊕ β → α ⊕ β → Ordering
  | .inl a, .inl a' => ca a a'
  | .inl _, .inr _ => .lt
  | .inr _, .inl _ => .gt
  | .inr b, .inr b' => cb b b'

/-- Comparator on pairs, first component first. -/
def pairCmp (ca : α → α → Ordering) (cb : β → β → Ordering) (p q : α × β) : Ordering :=
  (ca p.1 q.1).then (cb p.2 q.2)

/-- The always-equal comparator (on `Unit`). -/
def unitCmp (_ _ : Unit) : Ordering := .eq

theorem Ordering.swap_of_then (o p : Ordering) : (o.then p).swap = o.swap.then p.swap := by
  cases o <;> rfl

theorem then_ne_gt {o p : Ordering} :
    o.then p ≠ .gt ↔ o = .lt ∨ (o = .eq ∧ p ≠ .gt) := by
  cases o <;> cases p <;> simp [Ordering.then]

section CmpInstances

open Batteries

instance keyCmp_oriented (f : α → β) (c : β → β → Ordering) [OrientedCmp c] :
    OrientedCmp (keyCmp f c) :=
  ⟨fun a b => OrientedCmp.symm (f a) (f b)⟩

instance keyCmp_trans (f : α → β) (c : β → β → Ordering) [TransCmp c] :
    TransCmp (keyCmp f c) :=
  { le_trans := fun h1 h2 => @TransCmp.le_trans _ c _ _ _ _ h1 h2 }

instance thenCmp_oriented (c d : α → α → Ordering) [OrientedCmp c] [OrientedCmp d] :
    OrientedCmp (thenCmp c d) := by
  refine ⟨fun a b => ?_⟩
  unfold thenCmp
  rw [Ordering.swap_of_then, OrientedCmp.symm a b, @OrientedCmp.symm _ d _ a b]

instance thenCmp_trans (c d : α → α → Ordering) [TransCmp c] [TransCmp d] :
    TransCmp (thenCmp c d) := by
  refine ⟨fun {x y z} h1 h2 => ?_⟩
  unfold thenCmp at h1 h2 ⊢
  rw [then_ne_gt] at h1 h2 ⊢
  rcases h1 with h1 | ⟨h1, h1d⟩ <;> rcases h2 with h2 | ⟨h2, h2d⟩
  · exact Or.inl (TransCmp.lt_trans h1 h2)
  · exact Or.inl ((TransCmp.cmp_congr_right h2) ▸ h1)
  · exact Or.inl ((TransCmp.cmp_congr_left h1) ▸ h2)
  · exact Or.inr ⟨(TransCmp.cmp_congr_left h1) ▸ h2, TransCmp.le_trans h1d h2d⟩

instance sumCmp_oriented (ca : α → α → Ordering) (cb : β → β → Ordering)
    [OrientedCmp ca] [OrientedCmp cb] : OrientedCmp (sumCmp ca cb) := by
  refine ⟨fun a b => ?_⟩
  cases a <;> cases b
  · exact @OrientedCmp.symm _ ca _ _ _
  · rfl
  · rfl
  · exact @OrientedCmp.symm _ cb _ _ _

instance sumCmp_trans (ca : α → α → Ordering) (cb : β → β → Ordering)
    [TransCmp ca] [TransCmp cb] : TransCmp (sumCmp ca cb) :=
  { toOrientedCmp := sumCmp_oriented ca cb
    le_trans := fun {x y z} h1 h2 =>
      match x, y, z, h1, h2 with
      | .inl _, .inl _, .inl _, h1, h2 => @TransCmp.le_trans _ ca _ _ _ _ h1 h2
      | .inl _, .inl _, .inr _, _, _ => fun h => Ordering.noConfusion h
      | .inl _, .inr _, .inr _, _, _ => fun h => Ordering.noConfusion h
      | .inl _, .inr _, .inl _, _, h2 => absurd rfl h2
      | .inr _, .inl _, _, h1, _ => absurd rfl h1
      | .inr _, .inr _, .inl _, _, h2 => absurd rfl h2
      | .inr _, .inr _, .inr _, h1, h2 => @TransCmp.le_trans _ cb _ _ _ _ h1 h2 }

instance pairCmp_trans (ca : α → α → Ordering) (cb : β → β → Ordering)
    [TransCmp ca] [TransCmp cb] : TransCmp (pairCmp ca cb) := by
  have : pairCmp ca cb = thenCmp (keyCmp Prod.fst ca) (keyCmp Prod.snd cb) := rfl
  rw [this]; infer_instance

instance unitCmp_trans : TransCmp unitCmp :=
  { symm := fun _ _ => rfl, le_trans := fun _ h => h }

instance listCmp_oriented (c : α → α → Ordering) [OrientedCmp c] :
    OrientedCmp (listCmp c) := by
  refine ⟨fun a b => ?_⟩
  induction a generalizing b with
  | nil => cases b <;> rfl
  | cons x xs ih =>
    cases b with
    | nil => rfl
    | cons y ys =>
      show ((c x y).then (listCmp c xs ys)).swap = (c y x).then (listCmp c ys xs)
      rw [Ordering.swap_of_then, OrientedCmp.symm x y, ih ys]

instance listCmp_trans (c : α → α → Ordering) [TransCmp c] : TransCmp (listCmp c) := by
  refine ⟨fun {x y z} h1 h2 => ?_⟩
  induction x generalizing y z with
  | nil => cases z <;> simp [listCmp]
  | cons a as ih =>
    cases y with
    | nil => simp [listCmp] at h1
    | cons b bs =>
      cases z with
      | nil => simp [listCmp] at h2
      | cons d ds =>
        show (c a d).then (listCmp c as ds) ≠ .gt
        have h1' : (c a b).then (listCmp c as bs) ≠ .gt := h1
        have h2' : (c b d).then (listCmp c bs ds) ≠ .gt := h2
        rw [then_ne_gt] at h1' h2' ⊢
        rcases h1' with h1' | ⟨h1', h1t⟩ <;> rcases h2' with h2' | ⟨h2', h2t⟩
        · exact Or.inl (TransCmp.lt_trans h1' h2')
        · exact Or.inl ((TransCmp.cmp_congr_right h2') ▸ h1')
        · exact Or.inl ((TransCmp.cmp_congr_left h1') ▸ h2')
        · exact Or.inr ⟨(TransCmp.cmp_congr_left h1') ▸ h2', ih h1t h2t⟩

instance charCmp_trans : TransCmp charCmp := by
  have : charCmp = keyCmp Char.toNat compare := rfl
  rw [this]; infer_instance

instance strCmp_trans : TransCmp strCmp := by
  have : strCmp = listCmp charCmp := rfl
  rw [this]; infer_instance

/-- Sort key of a pre-release identifier: numeric identifiers (ordered by
length then text, i.e. numerically, absent leading zeros) below
alphanumeric ones (text order). -/
def preIdentKey (l : Str) : (Nat × Str) ⊕ Str :=
  if l.all isAsciiDigit then .inl (l.length, l) else .inr l

theorem preIdentCmp_eq_keyed :
    preIdentCmp = keyCmp preIdentKey (sumCmp (pairCmp compare strCmp) strCmp) := by
  funext l r
  unfold preIdentCmp preIdentKey keyCmp
  cases hl : l.all isAsciiDigit <;> cases hr : r.all isAsciiDigit <;>
    simp [hl, hr, sumCmp, pairCmp]

instance preIdentCmp_trans : TransCmp preIdentCmp := by
  rw [preIdentCmp_eq_keyed]; infer_instance

/-- Sort key of a build identifier. -/
def buildIdentKey (l : Str) : ((Nat × Str) × Nat) ⊕ Str :=
  if l.all isAsciiDigit then
    .inl (((l.dropWhile (· = '0')).length, l.dropWhile (· = '0')), l.length)
  else .inr l

theorem buildIdentCmp_eq_keyed :
    buildIdentCmp =
      keyCmp buildIdentKey (sumCmp (pairCmp (pairCmp compare strCmp) compare) strCmp) := by
  funext l r
  unfold buildIdentCmp buildIdentKey keyCmp
  cases hl : l.all isAsciiDigit <;> cases hr : r.all isAsciiDigit <;>
    simp [hl, hr, sumCmp, pairCmp]

instance buildIdentCmp_trans : TransCmp buildIdentCmp := by
  rw [buildIdentCmp_eq_keyed]; infer_instance

/-- Sort key of a pre-release string: the empty pre-release above all
non-empty ones. -/
def preKey (x : Str) : List Str ⊕ Unit :=
  if x.isEmpty then .inr () else .inl (List.splitOn '.' x)

theorem preCmp_eq_keyed :
    preCmp = keyCmp preKey (sumCmp (listCmp preIdentCmp) unitCmp) := by
  funext x y
  unfold preCmp preKey keyCmp
  cases hx : x.isEmpty <;> cases hy : y.isEmpty <;> simp [hx, hy, sumCmp, unitCmp]

instance preCmp_trans : TransCmp preCmp := by
  rw [preCmp_eq_keyed]; infer_instance

instance buildCmp_trans : TransCmp buildCmp := by
  have : buildCmp = keyCmp (List.splitOn '.') (listCmp buildIdentCmp) := rfl
  rw [this]; infer_instance

theorem versionCmp_eq_keyed :
    versionCmp =
      thenCmp (keyCmp Version.major compare)
        (thenCmp (keyCmp Version.minor compare)
          (thenCmp (keyCmp Version.patch compare)
            (thenCmp (keyCmp Version.pre preCmp) (keyCmp Version.build buildCmp)))) := rfl

instance versionCmp_trans : TransCmp versionCmp := by
  rw [versionCmp_eq_keyed]; infer_instance

theorem versionLe_trans {a b c : Version} (h1 : versionLe a b) (h2 : versionLe b c) :
    versionLe a c := by
  simp only [versionLe, decide_eq_true_eq] at h1 h2 ⊢
  exact TransCmp.le_trans h1 h2

theorem versionLe_total (a b : Version) : versionLe a b || versionLe b a := by
  simp only [versionLe, decide_eq_true_eq, Bool.or_eq_true]
  by_cases h : versionCmp a b = .gt
  · refine Or.inr fun hc => ?_
    have hs := @OrientedCmp.symm _ versionCmp _ a b
    rw [h, hc] at hs
    exact absurd hs (by decide)
  · exact Or.inl h

theorem versionLe_refl (a : Version) : versionLe a a := by
  have hrefl : versionCmp a a = Ordering.eq := @OrientedCmp.cmp_refl _ versionCmp a _
  simp [versionLe, hrefl]

end CmpInstances

/-- The last element of a `Pairwise`-related list is related-or-equal to
every member. -/
theorem pairwise_getLast?_bound {R : α → α → Prop} :
    ∀ {l : List α} {m : α}, l.Pairwise R → l.getLast? = some m →
      ∀ x ∈ l, R x m ∨ x = m
  | [], _, _, h, _ => by simp at h
  | [a], m, hp, h, x => by
    simp at h
    intro hx
    simp at hx
    exact Or.inr (hx.trans h)
  | a :: b :: t, m, hp, h, x => by
    intro hx
    rw [List.getLast?_cons_cons] at h
    rcases List.mem_cons.mp hx with rfl | hx'
    · exact Or.inl ((List.pairwise_cons.mp hp).1 m (List.mem_of_mem_getLast? h))
    · exact pairwise_getLast?_bound (List.pairwise_cons.mp hp).2 h x hx'

/-- `versions.sort(); versions.last()` returns a maximum of the list. -/
theorem mergeSort_getLast?_max {l : List Version} {m : Version}
    (h : (l.mergeSort versionLe).getLast? = some m) :
    m ∈ l ∧ ∀ x ∈ l, versionLe x m := by
  have hmem : m ∈ l := List.mem_mergeSort.mp (List.mem_of_mem_getLast? h)
  refine ⟨hmem, fun x hx => ?_⟩
  have hsorted := @List.sorted_mergeSort _ versionLe
    (fun a b c h1 h2 => versionLe_trans h1 h2) versionLe_total l
  have hb := pairwise_getLast?_bound hsorted h x (List.mem_mergeSort.mpr hx)
  rcases hb with hb | rfl
  · exact hb
  · exact versionLe_refl x

/-! ## Separator splitting and joining

`str::split(sep)` / `[String]::join(sep)`, with the round-trip lemmas the
ignore-file claims need. -/

/-- `str::split(sep)` (an empty string yields one empty piece). -/
def splitSep (sep : Char) : Str → List Str
  | [] => [[]]
  | c :: cs =>
    let r := splitSep sep cs
    if c = sep then [] :: r
    else
      match r with
      | s :: ss => (c :: s) :: ss
      | [] => [[c]]

/-- `[String]::join(sep)`. -/
def joinSep (sep : Char) : List Str → Str
  | [] => []
  | [s] => s
  | s :: ss => s ++ sep :: joinSep sep ss

theorem splitSep_ne_nil (sep : Char) (s : Str) : splitSep sep s ≠ [] := by
  cases s with
  | nil => simp [splitSep]
  | cons c cs =>
    simp only [splitSep]
    split
    · simp
    · split <;> simp

theorem joinSep_cons (sep : Char) (s : Str) {ss : List Str} (h : ss ≠ []) :
    joinSep sep (s :: ss) = s ++ sep :: joinSep sep ss := by
  cases ss with
  | nil => exact absurd rfl h
  | cons t ts => rfl

theorem joinSep_splitSep (sep : Char) (s : Str) : joinSep sep (splitSep sep s) = s := by
  induction s with
  | nil => rfl
  | cons c cs ih =>
    simp only [splitSep]
    by_cases hc : c = sep
    · rw [if_pos hc, joinSep_cons sep [] (splitSep_ne_nil sep cs), ih, hc]
      rfl
    · rw [if_neg hc]
      rcases hr : splitSep sep cs with _ | ⟨s0, ss⟩
      · exact absurd hr (splitSep_ne_nil sep cs)
      · cases ss with
        | nil =>
          have := ih
          rw [hr] at this
          simpa [joinSep] using congrArg (c :: ·) this
        | cons t ts =>
          have := ih
          rw [hr, joinSep_cons sep s0 (by simp)] at this
          rw [joinSep_cons sep (c :: s0) (by simp)]
          simpa using this

theorem splitSep_sepFree (sep : Char) (s : Str) :
    ∀ x ∈ splitSep sep s, sep ∉ x := by
  induction s with
  | nil => simp [splitSep]
  | cons c cs ih =>
    simp only [splitSep]
    by_cases hc : c = sep
    · rw [if_pos hc]
      intro x hx
      rcases List.mem_cons.mp hx with rfl | hx'
      · simp
      · exact ih x hx'
    · rw [if_neg hc]
      rcases hr : splitSep sep cs with _ | ⟨s0, ss⟩
      · exact absurd hr (splitSep_ne_nil sep cs)
      · intro x hx
        rcases List.mem_cons.mp hx with rfl | hx'
        · intro hmem
          rcases List.mem_cons.mp hmem with rfl | hmem'
          · exact hc rfl
          · exact ih s0 (hr ▸ List.mem_cons_self s0 ss) hmem'
        · exact ih x (hr ▸ List.mem_cons_of_mem s0 hx')

theorem splitSep_of_sepFree (sep : Char) (s : Str) (h : sep ∉ s) :
    splitSep sep s = [s] := by
  induction s with
  | nil => rfl
  | cons c cs ih =>
    have hc : ¬ c = sep := fun hcc => h (hcc ▸ List.mem_cons_self c cs)
    have hcs : sep ∉ cs := fun hmem => h (List.mem_cons_of_mem c hmem)
    simp only [splitSep, if_neg hc, ih hcs]

theorem splitSep_append_sep (sep : Char) (s t : Str) (h : sep ∉ s) :
    splitSep sep (s ++ sep :: t) = s :: splitSep sep t := by
  induction s with
  | nil => simp [splitSep]
  | cons c cs ih =>
    have hc : ¬ c = sep := fun hcc => h (hcc ▸ List.mem_cons_self c cs)
    have hcs : sep ∉ cs := fun hmem => h (List.mem_cons_of_mem c hmem)
    simp only [List.cons_append, splitSep, if_neg hc]
    rw [show cs.append (sep :: t) = cs ++ sep :: t from rfl, ih hcs]

theorem splitSep_joinSep (sep : Char) :
    ∀ L : List Str, L ≠ [] → (∀ l ∈ L, sep ∉ l) →
      splitSep sep (joinSep sep L) = L
  | [], h, _ => absurd rfl h
  | [s], _, hfree => by
    simpa [joinSep] using splitSep_of_sepFree sep s (hfree s (by simp))
  | s :: t :: ts, _, hfree => by
    rw [joinSep_cons sep s (by simp),
      splitSep_append_sep sep s (joinSep sep (t :: ts)) (hfree s (by simp)),
      splitSep_joinSep sep (t :: ts) (by simp)
        (fun l hl => hfree l (List.mem_cons_of_mem s hl))]

/-! ## Paths

`std::path::PathBuf`, embedded as a component list plus an absoluteness
flag.  The encoders of `resource.rs` only ever `join` single normal
components, so component-level modelling is exact for them. -/

structure FsPath where
  absolute : Bool
  comps : List Str
deriving DecidableEq

/-- `Path::join` with a relative path (the only use in the embedded code). -/
def FsPath.joinRel (p : FsPath) (q : FsPath) : FsPath :=
  ⟨p.absolute, p.comps ++ q.comps⟩

/-- `Path::strip_prefix`: `none` when `root` is not a prefix of `p`
(mirrors the `Err` of the original). -/
def FsPath.stripRoot (p root : FsPath) : Option FsPath :=
  if root.absolute = p.absolute ∧ root.comps.isPrefixOf p.comps then
    some ⟨false, p.comps.drop root.comps.length⟩
  else none

/-- `Path::to_string_lossy` for our paths: components joined by `/`, with a
leading `/` when absolute. -/
def FsPath.render (p : FsPath) : Str :=
  (if p.absolute then ['/'] else []) ++ joinSep '/' p.comps

/-- `str::replace("__", "+")` (leftmost, non-overlapping). -/
def replaceUnderUnderWithPlus : Str → Str
  | '_' :: '_' :: rest => '+' :: replaceUnderUnderWithPlus rest
  | c :: rest => c :: replaceUnderUnderWithPlus rest
  | [] => []

/-- `str::replace('+', "__")`. -/
def replacePlusWithUnderUnder : Str → Str
  | '+' :: rest => '_' :: '_' :: replacePlusWithUnderUnder rest
  | c :: rest => c :: replacePlusWithUnderUnder rest
  | [] => []

/-- `str::strip_prefix` for a literal prefix. -/
def stripLit (pre s : Str) : Option Str :=
  if pre.isPrefixOf s then some (s.drop pre.length) else none

/-! ## The `Name` codec (`resource.rs`) -/

/-- A Battalion resource name: segments plus an optional pinned version. -/
structure Name where
  segments : List Str
  version : Option Version
deriving DecidableEq

/-- `Name::with_version`. -/
def Name.withVersion (n : Name) (v : Version) : Name := { n with version := some v }

/-- `Name::without_version`. -/
def Name.withoutVersion (n : Name) : Name := { n with version := none }

/-- `Display for Name`: segments joined by `.`, then `@version`. -/
def Name.display (n : Name) : Str :=
  joinSep '.' n.segments ++
    (match n.version with
     | some v => '@' :: v.render
     | none => [])

/-- The character loop of `Name::new`, carrying the current segment
(`next`), the finished `segments`, the accumulated `version` text and the
`doing_version` flag, exactly as in the source. -/
def Name.newAux (val : Str) : Str → Str → List Str → Str → Bool → Except RErr Name
  | [], next, segments, version, _ =>
    -- after the loop: an empty `next` means a trailing `.` or empty input
    if next = [] then
      .error (.inputRequestedIsInvalid val ("Name cannot end with a period or be empty".data))
    else
      let segments := segments ++ [next]
      if version = [] then .ok ⟨segments, none⟩
      else
        match parseVersion version with
        | some v => .ok ⟨segments, some v⟩
        | none => .error .semverError
  | c :: cs, next, segments, version, true =>
    -- `doing_version`: every further character goes to the version text
    Name.newAux val cs next segments (version ++ [c]) true
  | c :: cs, next, segments, version, false =>
    if c = '@' then
      Name.newAux val cs next segments version true
    else if next = [] ∧ c = '_' then
      .error (.inputRequestedIsInvalid val ("Name segment cannot start with an underscore".data))
    else if c = '.' then
      if next = [] then
        .error (.inputRequestedIsInvalid val ("Name segment cannot end with a period".data))
      else
        Name.newAux val cs [] (segments ++ [next]) version false
    else if isAlphanumericAscii c || c = '-' || c = '_' then
      Name.newAux val cs (next ++ [c]) segments version false
    else
      .error (.inputRequestedIsInvalid val ("Segment parts must be alphanumeric".data))

/-- `Name::new` (= `Name::from_str`, the codec's `parse`). -/
def Name.new (val : Str) : Except RErr Name :=
  Name.newAux val val [] [] [] false

/-- `Name::path_segments_as_folder_name`: every segment single-underscore
prefixed; refused for pinned names. -/
def Name.pathSegmentsAsFolderName (n : Name) : Except RErr FsPath :=
  if n.version.isSome then
    .error (.inputRequestedIsInvalid n.display ("names with versions cannot be used as folders".data))
  else
    .ok ⟨false, n.segments.map (fun v => '_' :: v)⟩

/-- `Name::path_segments_as_version_folder`: non-terminal segments
single-underscore prefixed, terminal segment double-underscore prefixed. -/
def Name.pathSegmentsAsVersionFolder (n : Name) : FsPath :=
  let parts := n.segments
  let last := parts.getLast?
  let partsWithoutEnd := parts.dropLast
  ⟨false, partsWithoutEnd.map (fun part => '_' :: part)
      ++ ['_' :: '_' :: last.getD []]⟩

/-- `Name::path_segments_as_repository_name`: non-terminal segments
single-underscore prefixed; with a version the terminal segment is
double-underscore prefixed and followed by the version rendered with `+`
escaped as `__`; without a version the terminal segment is unprefixed. -/
def Name.pathSegmentsAsRepositoryName (n : Name) : FsPath :=
  let parts := n.segments
  let last := parts.getLast?
  let partsWithoutEnd := parts.dropLast
  let front := partsWithoutEnd.map (fun part => '_' :: part)
  match n.version with
  | some version =>
    ⟨false, front ++ ['_' :: '_' :: last.getD [], replacePlusWithUnderUnder version.render]⟩
  | none =>
    ⟨false, front ++ [last.getD []]⟩

/-- `Name::url_path_segments`: segments joined by `/`, optional trailing
`/_vX.Y.Z` with `+` escaped as `__`. -/
def Name.urlPathSegments (n : Name) : Str :=
  let segments := joinSep '/' n.segments
  let version :=
    match n.version with
    | some version => '/' :: '_' :: 'v' :: replacePlusWithUnderUnder version.render
    | none => []
  segments ++ version

/-- The component loop of `Name::from_absolute_path`: builds `segments` and
`version`; the built `segments` are then discarded by the source (shadowed
by a second computation), which this embedding reproduces. -/
def Name.fromAbsAux (value : FsPath) :
    List Str → List Str → Option Version → Bool → Except RErr (List Str × Option Version)
  | [], segments, version, _ => .ok (segments, version)
  | component :: rest, segments, version, doingVersion =>
    if doingVersion ∧ version.isNone then
      match parseVersion (replaceUnderUnderWithPlus component) with
      | some v => Name.fromAbsAux value rest segments (some v) doingVersion
      | none => .error .semverError
    else if doingVersion ∧ version.isSome then
      .error (.inputRequestedIsInvalid value.render ("version must be last component of path".data))
    else
      match stripLit ('_' :: '_' :: []) component with
      | some val => Name.fromAbsAux value rest (segments ++ [val]) version true
      | none =>
        match stripLit ['_'] component with
        | some val => Name.fromAbsAux value rest (segments ++ [val]) version doingVersion
        | none => Name.fromAbsAux value rest segments version doingVersion

/-- `Name::from_absolute_path`, relative to the configured storage roots
(`crate::system::repository_root()` / `fetched_repository_root()`). -/
def Name.fromAbsolutePath (repoRoot fetchedRoot : Option FsPath) (value : FsPath) :
    Except RErr Name :=
  if !value.absolute then
    .error (.inputRequestedIsInvalid value.render ("Path to convert to a name must be absolute".data))
  else
    match repoRoot with
    | none => .error .battalionNotSetup
    | some rr =>
      match fetchedRoot with
      | none => .error .battalionNotSetup
      | some fr =>
        let subpath := (value.stripRoot rr).or (value.stripRoot fr)
        match subpath with
        | some sub => do
          let (_, version) ← Name.fromAbsAux value sub.comps [] none false
          -- the source recomputes `segments` here, shadowing the loop's
          -- result: every component keeps all but one leading underscore,
          -- and no component (the version included) is dropped
          let segments := sub.comps.map (fun v => (stripLit ['_'] v).getD v)
          .ok ⟨segments, version⟩
        | none =>
          .error (.inputRequestedIsInvalid value.render
            ("Path to convert to a name must be a child of the repository root".data))

/-! ## HashMap / HashSet model

`std::collections::HashMap` is embedded as an association list (iteration
order of a `HashMap` is arbitrary; theorems about iteration therefore
quantify over the list order), `HashSet` as a list with set insertion. -/

variable {κ ν : Type} [DecidableEq κ]

/-- `HashMap::get`. -/
def alGet (k : κ) (l : List (κ × ν)) : Option ν :=
  (l.find? (fun p => p.1 = k)).map (·.2)

/-- `HashMap::contains_key`. -/
def alContains (k : κ) (l : List (κ × ν)) : Bool := l.any (fun p => p.1 = k)

/-- `HashMap::insert`. -/
def alInsert (k : κ) (v : ν) (l : List (κ × ν)) : List (κ × ν) :=
  if alContains k l then l.map (fun p => if p.1 = k then (k, v) else p)
  else l ++ [(k, v)]

/-- `HashMap::remove`. -/
def alRemove (k : κ) (l : List (κ × ν)) : List (κ × ν) :=
  l.filter (fun p => ¬ p.1 = k)

/-- `HashSet::insert`. -/
def insertSet [DecidableEq α] (x : α) (l : List α) : List α :=
  if x ∈ l then l else x :: l

/-! ## Configuration schemas and the migrator (`resource/repository.rs`)

The `tomlconfig` module itself is not among the provided sources; the field
shapes of its type aliases are modelled from their use in `repository.rs`
(e.g. `Dependencies0_2_2` maps names to free-text version strings, since
migration runs `Version::parse` on the values) and, for the `restrict` and
`environment` shapes, from the spec. -/

/-- Modelled from the spec (missing `tomlconfig.rs`): the schema-version
marker `environment` table; its content is irrelevant to every claim. -/
structure EnvironmentMark where
  mk ::
deriving DecidableEq, Inhabited

/-- `tomlconfig::RepositoryGit0_2_2` (`{url, path}`). -/
structure GitToml where
  url : Str
  path : Str
deriving DecidableEq

/-- `tomlconfig::Repository0_2_2` / `RepositoryLatest`: name, exact
version, optional git descriptor. -/
structure RepositoryToml where
  name : Name
  version : Version
  git : Option GitToml
deriving DecidableEq

/-- Modelled from the spec (missing `restrict.rs`/`tomlconfig.rs`): a
platform restriction condition. -/
inductive Restrictor where
  | unix
  | windows
deriving DecidableEq

/-- Modelled from the spec (missing `tomlconfig.rs`):
`RestrictRequirement0_2_2` (`Require | Forbid`). -/
inductive RestrictRequirement where
  | require
  | forbid
deriving DecidableEq

/-- Modelled from the spec (missing `tomlconfig.rs`):
`RestrictorSettings0_2_2` (`{include, dependencies}`). -/
structure RestrictorSettings where
  includeReq : Option RestrictRequirement
  dependencies : Option (List Name)
deriving DecidableEq

/-- `TomlConfig0_3_0` (= `TomlConfigLatest`). -/
structure TomlConfig0_3_0 where
  environment : EnvironmentMark
  repository : RepositoryToml
  scripts : Option (List (Str × Str))
  dependencies : Option (List (Name × Version))
  links : Option (List (Name × FsPath))
  restrict : Option (List (Restrictor × RestrictorSettings))
deriving DecidableEq

/-- `TomlConfig0_2_2`: dependency versions are free-text strings. -/
structure TomlConfig0_2_2 where
  environment : EnvironmentMark
  repository : RepositoryToml
  scripts : Option (List (Str × Str))
  dependencies : Option (List (Name × Str))
  restrict : Option (List (Restrictor × RestrictorSettings))
deriving DecidableEq

/-- `TomlConfig0_2_1`. -/
structure TomlConfig0_2_1 where
  environment : EnvironmentMark
  repository : RepositoryToml
  scripts : Option (List (Str × Str))
  dependencies : Option (List (Name × Str))
deriving DecidableEq

/-- `TomlConfig0_2_0`. -/
structure TomlConfig0_2_0 where
  environment : EnvironmentMark
  repository : RepositoryToml
  scripts : Option (List (Str × Str))
  dependencies : Option (List (Name × Str))
deriving DecidableEq

/-- `impl From<TomlConfig0_2_2> for TomlConfigLatest`: parse each
dependency version string, defaulting to `0.0.0` on failure; no links. -/
def latestOf0_2_2 (value : TomlConfig0_2_2) : TomlConfig0_3_0 :=
  let dependencies := value.dependencies.map (fun deps =>
    deps.map (fun kv =>
      let version := (parseVersion kv.2).getD (Version.new 0 0 0)
      (kv.1, version)))
  { environment := default
    repository := value.repository
    scripts := value.scripts
    dependencies := dependencies
    links := none
    restrict := value.restrict }

/-- `impl From<TomlConfig0_2_1> for TomlConfig0_2_2`. -/
def v0_2_2Of0_2_1 (value : TomlConfig0_2_1) : TomlConfig0_2_2 :=
  { environment := default
    repository :=
      { name := value.repository.name
        version := value.repository.version
        git := value.repository.git }
    scripts := value.scripts
    dependencies := value.dependencies
    restrict := none }

/-- `impl From<TomlConfig0_2_1> for TomlConfigLatest`. -/
def latestOf0_2_1 (value : TomlConfig0_2_1) : TomlConfig0_3_0 :=
  latestOf0_2_2 (v0_2_2Of0_2_1 value)

/-- `impl From<TomlConfig0_2_0> for TomlConfig0_2_2`. -/
def v0_2_2Of0_2_0 (value : TomlConfig0_2_0) : TomlConfig0_2_2 :=
  { environment := default
    repository :=
      { name := value.repository.name
        version := value.repository.version
        git := value.repository.git }
    scripts := value.scripts
    dependencies := value.dependencies
    restrict := none }

/-- `impl From<TomlConfig0_2_0> for TomlConfigLatest`. -/
def latestOf0_2_0 (value : TomlConfig0_2_0) : TomlConfig0_3_0 :=
  latestOf0_2_2 (v0_2_2Of0_2_0 value)

/-- `repository::AnyTomlConfig`: the parse result of a `batl.toml` of any
schema generation. -/
inductive AnyTomlConfig where
  | v0_3_0 (c : TomlConfig0_3_0)
  | v0_2_2 (c : TomlConfig0_2_2)
  | v0_2_1 (c : TomlConfig0_2_1)
  | v0_2_0 (c : TomlConfig0_2_0)
deriving DecidableEq

/-- `impl From<AnyTomlConfig> for TomlConfigLatest`. -/
def latestOfAny : AnyTomlConfig → TomlConfig0_3_0
  | .v0_2_0 c => latestOf0_2_0 c
  | .v0_2_1 c => latestOf0_2_1 c
  | .v0_2_2 c => latestOf0_2_2 c
  | .v0_3_0 c => c

/-- `repository::GitConfig`. -/
structure GitConfig where
  url : Str
  path : Str
deriving DecidableEq

/-- The canonical `repository::Config`.  The `.into()` conversions between
the toml-side and canonical restrict types live in the missing
`tomlconfig.rs`/`restrict.rs` and are modelled as the identity. -/
structure Config where
  name : Name
  version : Version
  git : Option GitConfig
  scripts : List (Str × Str)
  dependencies : List (Name × Version)
  links : List (Name × FsPath)
  restrict : List (Restrictor × RestrictorSettings)
deriving DecidableEq

/-- `impl From<TomlConfigLatest> for Config`: absent optional tables become
empty maps. -/
def Config.ofLatest (value : TomlConfig0_3_0) : Config :=
  let git := value.repository.git.map (fun toml => GitConfig.mk toml.url toml.path)
  let restrict := value.restrict.getD []
  { name := value.repository.name
    version := value.repository.version
    git := git
    scripts := value.scripts.getD []
    dependencies := value.dependencies.getD []
    links := value.links.getD []
    restrict := restrict }

/-- `tomlconfig::hashmap_to_option_hashmap`, modelled from its name and the
round-trip with the `unwrap_or_default` reads: an empty map becomes
`None`. -/
def hashmapToOptionHashmap (m : List (κ × ν)) : Option (List (κ × ν)) :=
  if m.isEmpty then none else some m

/-- `impl From<Config> for TomlConfigLatest` (used by `save`). -/
def latestOfConfig (value : Config) : TomlConfig0_3_0 :=
  let git := value.git.map (fun conf => GitToml.mk conf.url conf.path)
  { environment := default
    repository := { name := value.name, version := value.version, git := git }
    scripts := hashmapToOptionHashmap value.scripts
    dependencies := hashmapToOptionHashmap value.dependencies
    links := hashmapToOptionHashmap value.links
    restrict := hashmapToOptionHashmap value.restrict }

/-! ## The repository resolver (`Repository::load`)

Filesystem reads are abstracted into oracles: `pathExists` embeds
`Path::exists`, `readAnyToml` embeds `AnyTomlConfig::read_toml` of the
`batl.toml` under a directory (TOML deserialization itself is the external
`toml`/`serde` collaborator), `children` embeds `read_dir` file names.
`crate::system::repository_root()`/`fetched_repository_root()` (the
`system` module is not among the provided sources; per the spec they are
the "repositories" and fetched storage roots) are the optional `repoRoot`
and `fetchedRoot`.  `enclosing` is the result of
`Repository::locate_then_load(&current_dir()?)`, the nearest-ancestor
search of the working directory. -/

structure Fs where
  pathExists : FsPath → Bool
  readAnyToml : FsPath → Except RErr AnyTomlConfig
  children : FsPath → List Str

/-- A loaded repository: absolute path, canonical config, resolved name. -/
structure Repository where
  path : FsPath
  config : Config
  name : Name
deriving DecidableEq

structure Ctx where
  repoRoot : Option FsPath
  fetchedRoot : Option FsPath
  fs : Fs
  enclosing : Except RErr (Option Repository)

/-- `Repository::from_path`. -/
def Repository.fromPath (ctx : Ctx) (path : FsPath) : Except RErr Repository := do
  let name ← Name.fromAbsolutePath ctx.repoRoot ctx.fetchedRoot path
  let toml ← ctx.fs.readAnyToml path
  .ok ⟨path, Config.ofLatest (latestOfAny toml), name⟩

/-- The pinned branch of `Repository::load` (`name.version = Some
version`): local versioned path, then fetched versioned path, then the
local unversioned path guarded by the declared version. -/
def Repository.loadVersioned (ctx : Ctx) (name : Name) (version : Version) :
    Except RErr (Option Repository) :=
  let nameSegments := name.pathSegmentsAsRepositoryName
  let step3 : Except RErr (Option Repository) :=
    let nameSegmentsNoversion := name.withoutVersion.pathSegmentsAsRepositoryName
    match ctx.repoRoot.map (fun p => p.joinRel nameSegmentsNoversion) with
    | some path =>
      if ctx.fs.pathExists path then do
        let repository ← Repository.fromPath ctx path
        if repository.config.version = version then .ok (some repository)
        else .ok none
      else .ok none
    | none => .ok none
  let step2 : Except RErr (Option Repository) :=
    match ctx.fetchedRoot.map (fun p => p.joinRel nameSegments) with
    | some path =>
      if ctx.fs.pathExists path then (Repository.fromPath ctx path).map some
      else step3
    | none => step3
  match ctx.repoRoot.map (fun p => p.joinRel nameSegments) with
  | some path =>
    if ctx.fs.pathExists path then (Repository.fromPath ctx path).map some
    else step2
  | none => step2

/-- The version-folder enumeration of the floating branch: parse every
child file name as a semantic version, the first failure propagating (the
`collect::<Result<Vec<_>, _>>()?` of the source). -/
def parseChildVersions (ls : List Str) : Except RErr (List Version) :=
  ls.mapM (fun ver =>
    match parseVersion ver with
    | some v => Except.ok v
    | none => Except.error RErr.semverError)

/-- The floating branch of `Repository::load` (`name.version = None`):
dependency pin of the enclosing repository, then the local unversioned
path, then the greatest version under the local version folder, then the
greatest version under the fetched version folder.  The recursive calls
`Self::load(name.with_version(v))` dispatch to the pinned branch and are
embedded as direct calls to `loadVersioned`. -/
def Repository.loadFloating (ctx : Ctx) (name : Name) :
    Except RErr (Option Repository) := do
  let enclosing ← ctx.enclosing
  match enclosing.bind (fun repository => alGet name repository.config.dependencies) with
  | some version => Repository.loadVersioned ctx (name.withVersion version) version
  | none =>
    let step4 : Except RErr (Option Repository) := do
      match ctx.fetchedRoot.map (fun p => p.joinRel name.pathSegmentsAsVersionFolder) with
      | some path =>
        if ctx.fs.pathExists path then do
          let versions ← parseChildVersions (ctx.fs.children path)
          match (versions.mergeSort versionLe).getLast? with
          | some version =>
            Repository.loadVersioned ctx (name.withVersion version) version
          | none => .ok none
        else .ok none
      | none => .ok none
    let step3 : Except RErr (Option Repository) := do
      match ctx.repoRoot.map (fun p => p.joinRel name.pathSegmentsAsVersionFolder) with
      | some path =>
        if ctx.fs.pathExists path then do
          let versions ← parseChildVersions (ctx.fs.children path)
          match (versions.mergeSort versionLe).getLast? with
          | some version =>
            Repository.loadVersioned ctx (name.withVersion version) version
          | none => step4
        else step4
      | none => step4
    match ctx.repoRoot.map (fun p => p.joinRel name.pathSegmentsAsRepositoryName) with
    | some path =>
      if ctx.fs.pathExists path then (Repository.fromPath ctx path).map some
      else step3
    | none => step3

/-- `Repository::load`. -/
def Repository.load (ctx : Ctx) (name : Name) : Except RErr (Option Repository) :=
  match name.version with
  | some version => Repository.loadVersioned ctx name version
  | none => Repository.loadFloating ctx name

/-! ## The ignore-file managed block (link manager) -/

def beginSentinel : Str := "# batl.gitignore begin DO NOT MODIFY".data

def endSentinel : Str := "# batl.gitignore end DO NOT MODIFY".data

/-- `content.split('\n')`. -/
def splitLines (c : Str) : List Str := splitSep '\n' c

/-- `lines.join("\n")`. -/
def joinLines (ls : List Str) : Str := joinSep '\n' ls

/-- `Repository::add_path_to_gitignore_file` as a content transformer (the
read of a missing file yields `""`, the write replaces the file): insert
the path line right after the begin sentinel, or append a fresh block. -/
def addPathToGitignoreContent (content p : Str) : Str :=
  let ls := splitLines content
  match ls.findIdx? (fun v => v = beginSentinel) with
  | some batlpos => joinLines (ls.insertIdx (batlpos + 1) p)
  | none => joinLines (ls ++ [beginSentinel, p, endSentinel])

/-- `Repository::remove_path_from_gitignore_file` as a content transformer:
from the begin sentinel, find the first line equal to the path or to the
end sentinel; at the end sentinel stop without touching the file, else
delete that line.  (When nothing is found, or there is no begin sentinel,
the source still rewrites the file with the unchanged lines.) -/
def removePathFromGitignoreContent (content p : Str) : Str :=
  let ls := splitLines content
  match ls.findIdx? (fun v => v = beginSentinel) with
  | some batlBegin =>
    match (ls.drop batlBegin).findIdx? (fun v => v = p || v = endSentinel) with
    | some position =>
      match ls[batlBegin + position]? with
      | some value =>
        if value = endSentinel then content
        else joinLines (ls.eraseIdx (batlBegin + position))
      | none => joinLines ls
    | none => joinLines ls
  | none => joinLines ls

/-! ## Link and dependency mutation (`add_link`, `remove_dependency`)

The world state carries everything these operations may touch: the
consumer's persisted `batl.toml` (as the `TomlConfigLatest` that
`save` writes), its `.gitignore` content, created symlinks, and the set of
otherwise-existing paths consulted by `Path::exists`.  Each operation
returns the world after every write it performed before returning. -/

structure World where
  savedConfig : Option TomlConfig0_3_0
  gitignore : Option Str
  symlinks : List (FsPath × FsPath)
  existing : List FsPath
deriving DecidableEq

/-- `Path::exists` against the world. -/
def World.pathExists (w : World) (p : FsPath) : Bool :=
  w.existing.any (fun q => q = p) || w.symlinks.any (fun q => q.1 = p)

/-- `Repository::save`: persist the canonical config re-encoded as the
latest schema. -/
def World.save (w : World) (config : Config) : World :=
  { w with savedConfig := some (latestOfConfig config) }

/-- `Repository::remove_dependency`: refused while a link still references
the name; otherwise remove and persist. -/
def Repository.removeDependency (self : Repository) (w : World) (name : Name) :
    Repository × World × Except RErr Unit :=
  if alContains name self.config.links then
    (self, w, .error (.actionImpossibleWhileCondition
      ("removing dependency".data) ("dependency is linked".data)))
  else
    let config := { self.config with dependencies := alRemove name self.config.dependencies }
    let self := { self with config := config }
    (self, (w.save config), .ok ())

/-- `Repository::add_link`: target must not exist, the dependency must be
declared; then edit the ignore file, create the symlink, record the link,
persist. -/
def Repository.addLink (self : Repository) (w : World) (repository : Repository)
    (path : FsPath) : Repository × World × Except RErr Unit :=
  let name := repository.name
  if w.pathExists path then
    (self, w, .error .resourceAlreadyExists)
  else if ¬ alContains name self.config.dependencies then
    (self, w, .error (.resourceDoesNotHaveThing ("repository".data) name.display))
  else
    let w := { w with
      gitignore := some (addPathToGitignoreContent (w.gitignore.getD []) path.render) }
    let w := { w with symlinks := w.symlinks ++ [(path, repository.path)] }
    let config := { self.config with links := alInsert name path self.config.links }
    let self := { self with config := config }
    (self, (w.save config), .ok ())

/-! ## The transitive dependency builder (`resource/summary.rs`)

`RecursedRepositoryDeps::add_deps_of_repository_to_tracked` recurses
through `Repository::load`; the recursion is embedded with explicit fuel
(the source recurses unboundedly; `RErr.outOfFuel` marks exhaustion and
corresponds to no source behavior).  The iteration order of the
`dependencies` `HashMap` is arbitrary in the source; here it is the
association-list order, and order-independent claims quantify over it. -/

/-- The `for` loop of `add_deps_of_repository_to_tracked` over the direct
dependencies: skip already-visited pairs, resolve the pinned dependency,
recurse into its own dependencies first (through `recurse`, the recursive
call at one less fuel), then insert the pair itself (post-order). -/
def addDepsLoop (ctx : Ctx)
    (recurse : List (Name × Version) → List (Name × Version) →
      Except RErr (List (Name × Version))) :
    List (Name × Version) → List (Name × Version) →
      Except RErr (List (Name × Version))
  | [], out => .ok out
  | dependency :: rest, out =>
    if dependency ∈ out then addDepsLoop ctx recurse rest out
    else
      let depName := dependency.1.withVersion dependency.2
      match Repository.load ctx depName with
      | .error e => .error e
      | .ok none =>
        .error (.resourceDoesNotExist (("dependency ".data) ++ depName.display))
      | .ok (some depRepo) =>
        match recurse depRepo.config.dependencies out with
        | .error e => .error e
        | .ok out2 => addDepsLoop ctx recurse rest (insertSet dependency out2)

def addDepsAux (ctx : Ctx) :
    Nat → List (Name × Version) → List (Name × Version) →
      Except RErr (List (Name × Version))
  | 0, _, _ => .error .outOfFuel
  | fuel + 1, deps, out => addDepsLoop ctx (addDepsAux ctx fuel) deps out

/-- `RecursedRepositoryDeps::add_deps_of_repository_to_tracked`. -/
def addDepsOfRepositoryToTracked (ctx : Ctx) (fuel : Nat) (repository : Repository)
    (tracked : Option (List (Name × Version))) : Except RErr (List (Name × Version)) :=
  addDepsAux ctx fuel repository.config.dependencies (tracked.getD [])

/-- `RecursedRepositoryDeps::of_repository` (the `HashSet` is read back out
as the output collection). -/
def recursedRepositoryDepsOf (ctx : Ctx) (fuel : Nat) (repository : Repository) :
    Except RErr (List (Name × Version)) :=
  addDepsOfRepositoryToTracked ctx fuel repository none

/-! ## The specified name grammar

The spec's grammar for `parse`, written from its words: a dot-separated
sequence of non-empty segments over `[A-Za-z0-9_-]`, none starting with
`_`, optionally followed by `@` and a valid semantic version. -/

/-- Split at the first occurrence of a separator. -/
def splitAtFirst (sep : Char) : Str → Option (Str × Str)
  | [] => none
  | c :: cs =>
    if c = sep then some ([], cs)
    else (splitAtFirst sep cs).map (fun p => (c :: p.1, p.2))

/-- The spec's segment character class `[A-Za-z0-9_-]`. -/
def claimSegChar (c : Char) : Bool := c.isAlpha || c.isDigit || c = '_' || c = '-'

/-- A valid segment per the spec: non-empty, in the class, not starting
with `_`. -/
def validSegmentClaim (seg : Str) : Bool :=
  !seg.isEmpty && seg.all claimSegChar && !(decide (seg.head? = some '_'))

/-- Every dot-separated piece is a valid segment. -/
def validSegsClaim (a : Str) : Bool := (splitSep '.' a).all validSegmentClaim

/-- The grammar exactly as the claim states it: an optional `@` must be
followed by a valid semantic version. -/
def claimedNameGrammar (s : Str) : Bool :=
  match splitAtFirst '@' s with
  | none => validSegsClaim s
  | some p => validSegsClaim p.1 && (parseVersion p.2).isSome

/-- The amended grammar: after `@` the version text may also be empty, in
which case the parsed name is floating (this is what the code accepts). -/
def amendedNameGrammar (s : Str) : Bool :=
  match splitAtFirst '@' s with
  | none => validSegsClaim s
  | some p => validSegsClaim p.1 && (p.2.isEmpty || (parseVersion p.2).isSome)

/-! ### Equivalence of `Name::new` with the grammar -/

/-- Success of the segment phase of the `Name::new` loop, as a function of
the remaining input and of whether the current segment is non-empty. -/
def okSeg : Str → Bool → Bool
  | [], b => b
  | c :: cs, b =>
    if c = '@' then b && (cs.isEmpty || (parseVersion cs).isSome)
    else if !b && c = '_' then false
    else if c = '.' then b && okSeg cs false
    else if isAlphanumericAscii c || c = '-' || c = '_' then okSeg cs true
    else false

@[simp] theorem isOk_ok (a : α) : (Except.ok a : Except RErr α).isOk = true := rfl

@[simp] theorem isOk_error (e : RErr) : (Except.error e : Except RErr α).isOk = false := rfl

theorem newAux_ver (val : Str) (input : Str) :
    ∀ (next : Str) (segs : List Str) (ver : Str),
      (Name.newAux val input next segs ver true).isOk =
        (!next.isEmpty && ((ver ++ input).isEmpty || (parseVersion (ver ++ input)).isSome)) := by
  induction input with
  | nil =>
    intro next segs ver
    rw [List.append_nil]
    cases next with
    | nil => simp [Name.newAux]
    | cons a as =>
      cases ver with
      | nil => simp [Name.newAux]
      | cons v vs =>
        simp only [Name.newAux]
        rw [if_neg (List.cons_ne_nil a as), if_neg (List.cons_ne_nil v vs)]
        cases hp : parseVersion (v :: vs) <;> simp [hp]
  | cons c cs ih =>
    intro next segs ver
    show (Name.newAux val cs next segs (ver ++ [c]) true).isOk = _
    rw [ih next segs (ver ++ [c])]
    simp

theorem newAux_seg (val : Str) (input : Str) :
    ∀ (next : Str) (segs : List Str),
      (Name.newAux val input next segs [] false).isOk = okSeg input (!next.isEmpty) := by
  induction input with
  | nil =>
    intro next segs
    cases next with
    | nil => simp [Name.newAux, okSeg]
    | cons a as => simp [Name.newAux, okSeg]
  | cons c cs ih =>
    intro next segs
    simp only [Name.newAux, okSeg]
    by_cases hat : c = '@'
    · rw [if_pos hat, if_pos hat]
      have hv := newAux_ver val cs next segs []
      simp only [List.nil_append] at hv
      rw [hv]
    · rw [if_neg hat, if_neg hat]
      cases next with
      | nil =>
        by_cases hu : c = '_'
        · rw [if_pos ⟨rfl, hu⟩]
          simp [hu]
        · rw [if_neg (fun h => hu h.2)]
          have hbu : (!(!(List.isEmpty ([] : Str))) && (c = '_' : Bool)) = false := by
            simp [hu]
          rw [hbu]
          simp only [Bool.false_eq_true, if_false]
          by_cases hdot : c = '.'
          · rw [if_pos hdot, if_pos hdot, if_pos trivial]
            simp
          · rw [if_neg hdot, if_neg hdot]
            by_cases hcls : (isAlphanumericAscii c || c = '-' || c = '_') = true
            · rw [if_pos hcls, if_pos hcls, List.nil_append, ih [c] segs]
              simp
            · rw [if_neg hcls, if_neg hcls]
              simp
      | cons a as =>
        rw [if_neg (fun h => List.cons_ne_nil a as h.1)]
        have hbu : (!(!(List.isEmpty (a :: as))) && (c = '_' : Bool)) = false := by
          simp
        rw [hbu]
        simp only [Bool.false_eq_true, if_false]
        by_cases hdot : c = '.'
        · rw [if_pos hdot, if_pos hdot, if_neg (List.cons_ne_nil a as), ih [] (segs ++ [a :: as])]
          simp
        · rw [if_neg hdot, if_neg hdot]
          by_cases hcls : (isAlphanumericAscii c || c = '-' || c = '_') = true
          · rw [if_pos hcls, if_pos hcls, ih ((a :: as) ++ [c]) segs]
            simp
          · rw [if_neg hcls, if_neg hcls]
            simp

/-- The loop's character class agrees with the spec's `[A-Za-z0-9_-]`. -/
theorem class_eq (c : Char) :
    (isAlphanumericAscii c || c = '-' || c = '_') = claimSegChar c := by
  by_cases hd : c = '-' <;> by_cases hu : c = '_' <;>
    simp [isAlphanumericAscii, claimSegChar, hd, hu]

/-- `validSegsClaim`, generalized to a point inside a segment: when `b` the
current segment already has a non-empty prefix (so the piece before the
next dot may be empty and may continue with `_`). -/
def validSegsCont (b : Bool) (a : Str) : Bool :=
  match splitSep '.' a with
  | [] => false
  | seg0 :: rest =>
    (if b then seg0.all claimSegChar else validSegmentClaim seg0)
      && rest.all validSegmentClaim

theorem splitSep_cons_sep (sep : Char) (t : Str) :
    splitSep sep (sep :: t) = [] :: splitSep sep t := by
  simp [splitSep]

theorem splitSep_cons_ne (sep c : Char) (t : Str) (h : ¬ c = sep) :
    splitSep sep (c :: t) =
      match splitSep sep t with
      | s :: ss => (c :: s) :: ss
      | [] => [[c]] := by
  simp [splitSep, h]

theorem vsc_nil (b : Bool) : validSegsCont b [] = b := by
  cases b <;> simp [validSegsCont, splitSep, validSegmentClaim]

theorem vsc_false (a : Str) : validSegsCont false a = validSegsClaim a := by
  unfold validSegsCont validSegsClaim
  cases hs : splitSep '.' a with
  | nil => exact absurd hs (splitSep_ne_nil '.' a)
  | cons s0 ss => simp

theorem vsc_dot (b : Bool) (t : Str) :
    validSegsCont b ('.' :: t) = (b && validSegsCont false t) := by
  unfold validSegsCont
  rw [splitSep_cons_sep]
  cases hs : splitSep '.' t with
  | nil => exact absurd hs (splitSep_ne_nil '.' t)
  | cons s0 ss => cases b <;> simp [validSegmentClaim]

theorem vsc_cons (b : Bool) (c : Char) (t : Str) (hc : ¬ c = '.') :
    validSegsCont b (c :: t) =
      ((if b then claimSegChar c else (claimSegChar c && !(c = '_' : Bool)))
        && validSegsCont true t) := by
  unfold validSegsCont
  rw [splitSep_cons_ne '.' c t hc]
  cases hs : splitSep '.' t with
  | nil => exact absurd hs (splitSep_ne_nil '.' t)
  | cons s0 ss =>
    cases b <;>
      simp [validSegmentClaim, Bool.and_assoc, Bool.and_comm, Bool.and_left_comm]

/-- `okSeg` computes the (amended) grammar from any segment point. -/
theorem okSeg_eq (a : Str) :
    ∀ b : Bool,
      okSeg a b =
        (match splitAtFirst '@' a with
         | none => validSegsCont b a
         | some p =>
           validSegsCont b p.1 && (p.2.isEmpty || (parseVersion p.2).isSome)) := by
  induction a with
  | nil => intro b; simp [okSeg, splitAtFirst, vsc_nil]
  | cons c cs ih =>
    intro b
    by_cases hat : c = '@'
    · subst hat
      have h1 : okSeg ('@' :: cs) b = (b && (cs.isEmpty || (parseVersion cs).isSome)) := by
        simp [okSeg]
      have h2 : splitAtFirst '@' ('@' :: cs) = some ([], cs) := by
        simp [splitAtFirst]
      rw [h1, h2]
      simp [vsc_nil]
    · have hsp : splitAtFirst '@' (c :: cs) =
          (splitAtFirst '@' cs).map (fun p => (c :: p.1, p.2)) := by
        simp [splitAtFirst, hat]
      by_cases hdot : c = '.'
      · subst hdot
        have h1 : okSeg ('.' :: cs) b = (b && okSeg cs false) := by
          cases b <;> simp [okSeg]
        rw [h1, ih false, hsp]
        cases hsc : splitAtFirst '@' cs with
        | none => simp [vsc_dot]
        | some p => simp [vsc_dot, Bool.and_assoc]
      · have h1 : okSeg (c :: cs) b =
            ((if b then claimSegChar c else (claimSegChar c && !(c = '_' : Bool)))
              && okSeg cs true) := by
          cases b <;>
            by_cases hu : c = '_' <;>
              simp [okSeg, hat, hdot, hu, class_eq, claimSegChar, isAlphanumericAscii]
        rw [h1, ih true, hsp]
        cases hsc : splitAtFirst '@' cs with
        | none => simp [vsc_cons b c _ hdot]
        | some p => simp [vsc_cons b c _ hdot, Bool.and_assoc]

/-- `Name::new` succeeds exactly on the amended grammar. -/
theorem nameNew_isOk_eq (s : Str) : (Name.new s).isOk = amendedNameGrammar s := by
  show (Name.newAux s s [] [] [] false).isOk = _
  rw [newAux_seg s s [] []]
  have : (!List.isEmpty ([] : Str)) = false := by simp
  rw [this, okSeg_eq s false]
  unfold amendedNameGrammar
  cases hsp : splitAtFirst '@' s <;> simp [hsp, vsc_false]

/-- Consuming one segment's worth of class characters just extends the
current segment. -/
theorem newAux_consume (val : Str) (t : Str) (r : Str) :
    ∀ (next : Str) (segs : List Str),
      t.all claimSegChar = true → (next = [] → t.head? ≠ some '_') →
      Name.newAux val (t ++ r) next segs [] false =
        Name.newAux val r (next ++ t) segs [] false := by
  induction t with
  | nil => intro next segs _ _; simp
  | cons c ts ih =>
    intro next segs hall hhead
    rw [List.all_cons, Bool.and_eq_true] at hall
    have hc : claimSegChar c = true := hall.1
    have hat : ¬ c = '@' := by
      intro h; subst h; exact absurd hc (by decide)
    have hdot : ¬ c = '.' := by
      intro h; subst h; exact absurd hc (by decide)
    have hund : ¬ (next = [] ∧ c = '_') := by
      rintro ⟨hn, hu⟩
      exact (hhead hn) (by simp [hu])
    show (if c = '@' then _ else _) = _
    rw [if_neg hat, if_neg hund, if_neg hdot,
      if_pos (show (isAlphanumericAscii c || c = '-' || c = '_') = true from by
        rw [class_eq c]; exact hc)]
    rw [show ts.append r = ts ++ r from rfl,
      ih (next ++ [c]) segs hall.2 (by simp)]
    simp

/-- Parsing the dot-joined rendering of valid segments recovers exactly the
segments, with no version. -/
theorem nameNew_joinSegs (val : Str) :
    ∀ (S : List Str) (segs : List Str),
      S ≠ [] → (∀ s ∈ S, validSegmentClaim s = true) →
      Name.newAux val (joinSep '.' S) [] segs [] false = .ok ⟨segs ++ S, none⟩ := by
  intro S
  induction S with
  | nil => intro segs h; exact absurd rfl h
  | cons s S' ih =>
    intro segs _ hval
    have hs := hval s (List.mem_cons_self s S')
    unfold validSegmentClaim at hs
    simp only [Bool.and_eq_true, Bool.not_eq_true'] at hs
    have hsne : ¬ s = [] := by
      intro h
      rw [h] at hs
      simpa using hs.1.1
    have hshead : s.head? ≠ some '_' := by
      intro h
      rw [h] at hs
      simpa using hs.2
    cases S' with
    | nil =>
      have : joinSep '.' [s] = s ++ [] := by simp [joinSep]
      rw [this, newAux_consume val s [] [] segs hs.1.2 (fun _ => hshead)]
      show (if ([] : Str) ++ s = [] then _ else _) = _
      rw [List.nil_append, if_neg hsne]
      simp [Name.newAux]
    | cons t ts =>
      rw [joinSep_cons '.' s (by simp),
        newAux_consume val s ('.' :: joinSep '.' (t :: ts)) [] segs hs.1.2
          (fun _ => hshead),
        List.nil_append]
      show (if ('.' : Char) = '@' then _ else _) = _
      rw [if_neg (by decide), if_neg (fun h => hsne h.1), if_pos rfl, if_neg hsne,
        ih (segs ++ [s]) (by simp) (fun x hx => hval x (List.mem_cons_of_mem s hx))]
      simp

/-! ## Claim theorems -/

instance exceptDecEq {ε α : Type} [DecidableEq ε] [DecidableEq α] :
    DecidableEq (Except ε α)
  | .ok a, .ok b =>
    if h : a = b then .isTrue (h ▸ rfl)
    else .isFalse (fun hc => h (Except.ok.inj hc))
  | .ok _, .error _ => .isFalse Except.noConfusion
  | .error _, .ok _ => .isFalse Except.noConfusion
  | .error e, .error f =>
    if h : e = f then .isTrue (h ▸ rfl)
    else .isFalse (fun hc => h (Except.error.inj hc))

/-- C1: the claim states that `to_repository_path` followed by `from_path`
recovers exactly a versioned name's segments and version.  The code does
not: `Name::from_absolute_path` carefully rebuilds the segments (stripping
the `__` marker and skipping the version component) in its component loop,
then discards that result by shadowing `segments` with a blanket
recomputation that strips only one leading `_` and keeps every component —
so `a.b@1.2.3`, stored at `_a/__b/1.2.3`, decodes to segments
`["a", "_b", "1.2.3"]` instead of `["a", "b"]` (the version itself is
recovered).  The spec (and the loop's dead computation) is clearly the
intent; the shadowing recomputation is the slip. -/
theorem c1_versioned_roundtrip_is_broken :
    (Name.fromAbsolutePath
        (some ⟨true, ["batl".data, "repositories".data]⟩)
        (some ⟨true, ["batl".data, "fetched".data]⟩)
        (FsPath.joinRel ⟨true, ["batl".data, "repositories".data]⟩
          (Name.pathSegmentsAsRepositoryName
            ⟨["a".data, "b".data], some (Version.new 1 2 3)⟩)) =
      .ok ⟨["a".data, "_b".data, "1.2.3".data], some (Version.new 1 2 3)⟩)
    ∧ ["a".data, "_b".data, "1.2.3".data] ≠ ["a".data, "b".data] := by
  constructor
  · decide
  · decide

/-- C5 counterexample: the claimed grammar requires `@` to be followed by a
valid semantic version, so it rejects `"a@"`; but `Name::new` treats an
empty version suffix as "no version" and accepts `"a@"` as the floating
name `a`.  The "accepts if and only if" of the claim is therefore false at
`"a@"`. -/
theorem c5_counterexample_empty_version_suffix :
    Name.new "a@".data = .ok ⟨["a".data], none⟩
      ∧ claimedNameGrammar "a@".data = false := by
  constructor
  · decide
  · decide

/-- C5 (amended, scoped to ASCII input): `Name::new` accepts an ASCII
string if and only if it is a dot-separated sequence of non-empty
`[A-Za-z0-9_-]` segments not starting with `_`, optionally followed by `@`
and either a valid semantic version or the empty string (the latter
yielding a floating name).  The ASCII scope is part of the amended claim,
not a convenience: the source's segment test (resource.rs, `Name::new`) is
the Unicode-aware `char::is_alphanumeric`, so on non-ASCII input the code
also accepts alphanumeric characters (such as `é`) that the claimed
`[A-Za-z0-9_-]` class excludes, and the iff would be false of the program
there.  The embedding models the ASCII fragment of that test
(`isAlphanumericAscii`), on which it coincides with the source, so the
theorem asserts the equivalence only under the ASCII hypothesis.  In
particular `a.b@1.2.3` parses to segments `a`,`b` with version `1.2.3`,
while `_a.b`, `a..b`, text ending with `.`, and `a.b@not-a-version` are
all rejected. -/
theorem c5_parse_iff_grammar_amended (s : Str) (hascii : ∀ c ∈ s, c.toNat < 128) :
    ((Name.new s).isOk = amendedNameGrammar s)
    ∧ Name.new "a.b@1.2.3".data = .ok ⟨["a".data, "b".data], some (Version.new 1 2 3)⟩
    ∧ (Name.new "_a.b".data).isOk = false
    ∧ (Name.new "a..b".data).isOk = false
    ∧ (Name.new "a.b.".data).isOk = false
    ∧ (Name.new "a.b@not-a-version".data).isOk = false := by
  refine ⟨nameNew_isOk_eq s, ?_, ?_, ?_, ?_, ?_⟩ <;> decide

/-- Witness for C5 (amended) at a concrete ASCII input. -/
theorem c5_parse_iff_grammar_amended_witness :
    ((Name.new "x-1.y_2".data).isOk = amendedNameGrammar "x-1.y_2".data)
    ∧ Name.new "a.b@1.2.3".data = .ok ⟨["a".data, "b".data], some (Version.new 1 2 3)⟩
    ∧ (Name.new "_a.b".data).isOk = false
    ∧ (Name.new "a..b".data).isOk = false
    ∧ (Name.new "a.b.".data).isOk = false
    ∧ (Name.new "a.b@not-a-version".data).isOk = false :=
  c5_parse_iff_grammar_amended ("x-1.y_2".data) (by decide)

/-- C9 counterexample: the URL rendering joins segments with `/`, but
`Name::new` splits on `.` and rejects `/` outright, so
`parse(render_url(Name(["a","b"], None)))` fails rather than recovering
the segments; the claimed round-trip is false for every multi-segment
name. -/
theorem c9_counterexample_url_render_not_parseable :
    Name.urlPathSegments ⟨["a".data, "b".data], none⟩ = "a/b".data
      ∧ (Name.new "a/b".data).isOk = false := by
  constructor
  · decide
  · decide

/-- C9 (amended): for every valid non-empty segment sequence `S`, the URL
rendering of the versionless name is the segments joined by `/`, and
parsing the `.`-joined rendering (the display form, which is the codec's
actual inverse) succeeds and recovers exactly `S` with no version.  The
round-trip as claimed holds only after mapping the `/` separator back to
`.`. -/
theorem c9_url_roundtrip_amended (S : List Str) (hne : S ≠ [])
    (hval : ∀ s ∈ S, validSegmentClaim s = true) :
    Name.urlPathSegments ⟨S, none⟩ = joinSep '/' S
      ∧ Name.new (joinSep '.' S) = .ok ⟨S, none⟩ := by
  constructor
  · simp [Name.urlPathSegments]
  · have h := nameNew_joinSegs (joinSep '.' S) S [] hne hval
    simpa [Name.new] using h

/-- Witness for C9 (amended) at `S = ["a", "b"]`. -/
theorem c9_url_roundtrip_amended_witness :
    Name.urlPathSegments ⟨["a".data, "b".data], none⟩ = joinSep '/' ["a".data, "b".data]
      ∧ Name.new (joinSep '.' ["a".data, "b".data]) = .ok ⟨["a".data, "b".data], none⟩ :=
  c9_url_roundtrip_amended ["a".data, "b".data] (by decide) (by decide)

/-- C6: migrating any structurally valid 0.2.x document is total by
construction (the `From` impls are plain functions), a missing
`dependencies`/`scripts`/`restrict` table and the `links` table absent
from every 0.2.x schema become empty mappings in the canonical config
(never absent), and a dependency version string that fails semver parsing
becomes `0.0.0` instead of aborting the migration. -/
theorem c6_migration_defaults_and_lenience :
    (∀ d : TomlConfig0_2_0,
      (d.dependencies = none → (Config.ofLatest (latestOf0_2_0 d)).dependencies = [])
      ∧ (Config.ofLatest (latestOf0_2_0 d)).links = []
      ∧ (Config.ofLatest (latestOf0_2_0 d)).restrict = []
      ∧ (d.scripts = none → (Config.ofLatest (latestOf0_2_0 d)).scripts = []))
    ∧ (∀ d : TomlConfig0_2_1,
      (d.dependencies = none → (Config.ofLatest (latestOf0_2_1 d)).dependencies = [])
      ∧ (Config.ofLatest (latestOf0_2_1 d)).links = []
      ∧ (Config.ofLatest (latestOf0_2_1 d)).restrict = []
      ∧ (d.scripts = none → (Config.ofLatest (latestOf0_2_1 d)).scripts = []))
    ∧ (∀ d : TomlConfig0_2_2,
      (d.dependencies = none → (Config.ofLatest (latestOf0_2_2 d)).dependencies = [])
      ∧ (Config.ofLatest (latestOf0_2_2 d)).links = []
      ∧ (d.restrict = none → (Config.ofLatest (latestOf0_2_2 d)).restrict = [])
      ∧ (d.scripts = none → (Config.ofLatest (latestOf0_2_2 d)).scripts = [])
      ∧ (∀ deps, d.dependencies = some deps →
          (Config.ofLatest (latestOf0_2_2 d)).dependencies =
            deps.map (fun kv => (kv.1, (parseVersion kv.2).getD (Version.new 0 0 0))))) := by
  refine ⟨fun d => ⟨?_, ?_, ?_, ?_⟩, fun d => ⟨?_, ?_, ?_, ?_⟩, fun d => ⟨?_, ?_, ?_, ?_, ?_⟩⟩ <;>
    first
    | (intro h
       simp [Config.ofLatest, latestOf0_2_0, latestOf0_2_1, latestOf0_2_2,
         v0_2_2Of0_2_1, v0_2_2Of0_2_0, h])
    | (intro deps h
       simp [Config.ofLatest, latestOf0_2_0, latestOf0_2_1, latestOf0_2_2,
         v0_2_2Of0_2_1, v0_2_2Of0_2_0, h])
    | simp [Config.ofLatest, latestOf0_2_0, latestOf0_2_1, latestOf0_2_2,
        v0_2_2Of0_2_1, v0_2_2Of0_2_0]

/-- Witness for C6 at a minimal 0.2.0 document with no optional tables. -/
theorem c6_migration_defaults_and_lenience_witness :
    (Config.ofLatest (latestOf0_2_0
      ⟨default, ⟨⟨["a".data], none⟩, Version.new 0 1 0, none⟩, none, none⟩)).dependencies = []
    ∧ (Config.ofLatest (latestOf0_2_2
      ⟨default, ⟨⟨["a".data], none⟩, Version.new 0 1 0, none⟩, none,
        some [(⟨["b".data], none⟩, "oops".data)], none⟩)).dependencies =
      [(⟨["b".data], none⟩, Version.new 0 0 0)] := by
  constructor
  · exact (c6_migration_defaults_and_lenience.1
      ⟨default, ⟨⟨["a".data], none⟩, Version.new 0 1 0, none⟩, none, none⟩).1 rfl
  · rw [((c6_migration_defaults_and_lenience.2.2
      ⟨default, ⟨⟨["a".data], none⟩, Version.new 0 1 0, none⟩, none,
        some [(⟨["b".data], none⟩, "oops".data)], none⟩).2.2.2.2)
      [(⟨["b".data], none⟩, "oops".data)] rfl]
    decide

/-- C8: `remove_dependency` on a name still present in the link map fails
with the action-impossible error and performs no mutation (the returned
repository and world are the inputs); only when no link references the
name is the dependency entry removed and the config persisted. -/
theorem c8_remove_dependency_linked_guard (self : Repository) (w : World) (name : Name) :
    (alContains name self.config.links = true →
      Repository.removeDependency self w name =
        (self, w, .error (.actionImpossibleWhileCondition
          ("removing dependency".data) ("dependency is linked".data))))
    ∧ (alContains name self.config.links = false →
      Repository.removeDependency self w name =
        ({ self with config :=
            { self.config with dependencies := alRemove name self.config.dependencies } },
          w.save { self.config with dependencies := alRemove name self.config.dependencies },
          .ok ())) := by
  constructor <;> intro h <;> simp [Repository.removeDependency, h]

/-- Witness for C8: a consumer with a linked dependency `b`. -/
theorem c8_remove_dependency_linked_guard_witness :
    Repository.removeDependency
      ⟨⟨true, []⟩,
        ⟨⟨["a".data], none⟩, Version.new 0 1 0, none, [],
          [(⟨["b".data], none⟩, Version.new 1 0 0)],
          [(⟨["b".data], none⟩, ⟨false, ["b".data]⟩)], []⟩,
        ⟨["a".data], none⟩⟩
      ⟨none, none, [], []⟩ ⟨["b".data], none⟩ =
      (⟨⟨true, []⟩,
        ⟨⟨["a".data], none⟩, Version.new 0 1 0, none, [],
          [(⟨["b".data], none⟩, Version.new 1 0 0)],
          [(⟨["b".data], none⟩, ⟨false, ["b".data]⟩)], []⟩,
        ⟨["a".data], none⟩⟩,
        ⟨none, none, [], []⟩,
        .error (.actionImpossibleWhileCondition
          ("removing dependency".data) ("dependency is linked".data))) :=
  (c8_remove_dependency_linked_guard _ _ _).1 (by decide)

/-- C10: both typed failures of `add_link` — target path already exists,
or the dependency is not declared — happen before any mutation: the
returned repository and world are exactly the inputs, so the config (in
memory and persisted), the ignore file, and the filesystem are
unchanged. -/
theorem c10_add_link_failures_mutate_nothing (self : Repository) (w : World)
    (repository : Repository) (path : FsPath) :
    (w.pathExists path = true →
      Repository.addLink self w repository path = (self, w, .error .resourceAlreadyExists))
    ∧ (w.pathExists path = false →
      alContains repository.name self.config.dependencies = false →
      Repository.addLink self w repository path =
        (self, w, .error (.resourceDoesNotHaveThing ("repository".data)
          repository.name.display))) := by
  constructor
  · intro h
    simp [Repository.addLink, h]
  · intro h1 h2
    simp [Repository.addLink, h1, h2]

/-- Witness for C10: an existing target path and an undeclared
dependency. -/
theorem c10_add_link_failures_mutate_nothing_witness :
    (Repository.addLink
      ⟨⟨true, []⟩, ⟨⟨["a".data], none⟩, Version.new 0 1 0, none, [], [], [], []⟩,
        ⟨["a".data], none⟩⟩
      ⟨none, none, [], [⟨false, ["x".data]⟩]⟩
      ⟨⟨true, ["b".data]⟩, ⟨⟨["b".data], none⟩, Version.new 1 0 0, none, [], [], [], []⟩,
        ⟨["b".data], none⟩⟩
      ⟨false, ["x".data]⟩ =
      (⟨⟨true, []⟩, ⟨⟨["a".data], none⟩, Version.new 0 1 0, none, [], [], [], []⟩,
        ⟨["a".data], none⟩⟩,
        ⟨none, none, [], [⟨false, ["x".data]⟩]⟩,
        .error .resourceAlreadyExists))
    ∧ (Repository.addLink
      ⟨⟨true, []⟩, ⟨⟨["a".data], none⟩, Version.new 0 1 0, none, [], [], [], []⟩,
        ⟨["a".data], none⟩⟩
      ⟨none, none, [], []⟩
      ⟨⟨true, ["b".data]⟩, ⟨⟨["b".data], none⟩, Version.new 1 0 0, none, [], [], [], []⟩,
        ⟨["b".data], none⟩⟩
      ⟨false, ["x".data]⟩ =
      (⟨⟨true, []⟩, ⟨⟨["a".data], none⟩, Version.new 0 1 0, none, [], [], [], []⟩,
        ⟨["a".data], none⟩⟩,
        ⟨none, none, [], []⟩,
        .error (.resourceDoesNotHaveThing ("repository".data)
          (Name.display ⟨["b".data], none⟩)))) :=
  ⟨(c10_add_link_failures_mutate_nothing _ _ _ _).1 (by decide),
   (c10_add_link_failures_mutate_nothing _ _ _ _).2 (by decide) (by decide)⟩

/-- C2: resolving a pinned name checks the local root's versioned path
first and returns that copy on a hit; otherwise the fetched root's
versioned path; otherwise it loads the local unversioned path and returns
that repository only if its declared config version equals the request,
and in every other case resolution is `Ok(None)`; through the unversioned
fallback a pinned request never yields a copy of a different version. -/
theorem c2_pinned_resolution_order (ctx : Ctx) (name : Name) (version : Version)
    (hv : name.version = some version) :
    (∀ p, ctx.repoRoot = some p →
      ctx.fs.pathExists (p.joinRel name.pathSegmentsAsRepositoryName) = true →
      Repository.load ctx name =
        (Repository.fromPath ctx (p.joinRel name.pathSegmentsAsRepositoryName)).map some)
    ∧ ((∀ p, ctx.repoRoot = some p →
          ctx.fs.pathExists (p.joinRel name.pathSegmentsAsRepositoryName) = false) →
       ∀ q, ctx.fetchedRoot = some q →
        ctx.fs.pathExists (q.joinRel name.pathSegmentsAsRepositoryName) = true →
        Repository.load ctx name =
          (Repository.fromPath ctx (q.joinRel name.pathSegmentsAsRepositoryName)).map some)
    ∧ ((∀ p, ctx.repoRoot = some p →
          ctx.fs.pathExists (p.joinRel name.pathSegmentsAsRepositoryName) = false) →
       (∀ q, ctx.fetchedRoot = some q →
          ctx.fs.pathExists (q.joinRel name.pathSegmentsAsRepositoryName) = false) →
       ∀ p, ctx.repoRoot = some p →
        ctx.fs.pathExists (p.joinRel name.withoutVersion.pathSegmentsAsRepositoryName) = true →
        Repository.load ctx name =
          (Repository.fromPath ctx
              (p.joinRel name.withoutVersion.pathSegmentsAsRepositoryName)).bind
            (fun r => if r.config.version = version then .ok (some r) else .ok none))
    ∧ ((∀ p, ctx.repoRoot = some p →
          ctx.fs.pathExists (p.joinRel name.pathSegmentsAsRepositoryName) = false) →
       (∀ q, ctx.fetchedRoot = some q →
          ctx.fs.pathExists (q.joinRel name.pathSegmentsAsRepositoryName) = false) →
       (∀ p, ctx.repoRoot = some p →
          ctx.fs.pathExists (p.joinRel name.withoutVersion.pathSegmentsAsRepositoryName)
            = false) →
       Repository.load ctx name = .ok none)
    ∧ ((∀ p, ctx.repoRoot = some p →
          ctx.fs.pathExists (p.joinRel name.pathSegmentsAsRepositoryName) = false) →
       (∀ q, ctx.fetchedRoot = some q →
          ctx.fs.pathExists (q.joinRel name.pathSegmentsAsRepositoryName) = false) →
       ∀ r, Repository.load ctx name = .ok (some r) → r.config.version = version) := by
  have hload : Repository.load ctx name = Repository.loadVersioned ctx name version := by
    unfold Repository.load
    rw [hv]
  refine ⟨?_, ?_, ?_, ?_, ?_⟩
  · intro p hp hex
    rw [hload]
    simp [Repository.loadVersioned, hp, hex]
  · intro hm1 q hq hex
    rw [hload]
    cases hr : ctx.repoRoot with
    | none => simp [Repository.loadVersioned, hr, hq, hex]
    | some p => simp [Repository.loadVersioned, hr, hq, hex, hm1 p hr]
  · intro hm1 hm2 p hp hex
    rw [hload]
    cases hf : ctx.fetchedRoot with
    | none =>
      cases hfp : Repository.fromPath ctx
          (p.joinRel name.withoutVersion.pathSegmentsAsRepositoryName) with
      | error e =>
        simp [Repository.loadVersioned, hp, hf, hm1 p hp, hex, hfp, Bind.bind, Except.bind]
      | ok r =>
        by_cases hvr : r.config.version = version <;>
          simp [Repository.loadVersioned, hp, hf, hm1 p hp, hex, hfp, hvr,
            Bind.bind, Except.bind]
    | some q =>
      cases hfp : Repository.fromPath ctx
          (p.joinRel name.withoutVersion.pathSegmentsAsRepositoryName) with
      | error e =>
        simp [Repository.loadVersioned, hp, hf, hm1 p hp, hm2 q hf, hex, hfp,
          Bind.bind, Except.bind]
      | ok r =>
        by_cases hvr : r.config.version = version <;>
          simp [Repository.loadVersioned, hp, hf, hm1 p hp, hm2 q hf, hex, hfp, hvr,
            Bind.bind, Except.bind]
  · intro hm1 hm2 hm3
    rw [hload]
    cases hr : ctx.repoRoot with
    | none =>
      cases hf : ctx.fetchedRoot with
      | none => simp [Repository.loadVersioned, hr, hf]
      | some q => simp [Repository.loadVersioned, hr, hf, hm2 q hf]
    | some p =>
      cases hf : ctx.fetchedRoot with
      | none => simp [Repository.loadVersioned, hr, hf, hm1 p hr, hm3 p hr]
      | some q => simp [Repository.loadVersioned, hr, hf, hm1 p hr, hm2 q hf, hm3 p hr]
  · intro hm1 hm2 r hres
    cases hr : ctx.repoRoot with
    | none =>
      rw [hload] at hres
      cases hf : ctx.fetchedRoot with
      | none => simp [Repository.loadVersioned, hr, hf] at hres
      | some q => simp [Repository.loadVersioned, hr, hf, hm2 q hf] at hres
    | some p =>
      cases hex : ctx.fs.pathExists
          (p.joinRel name.withoutVersion.pathSegmentsAsRepositoryName) with
      | false =>
        rw [hload] at hres
        cases hf : ctx.fetchedRoot with
        | none => simp [Repository.loadVersioned, hr, hf, hm1 p hr, hex] at hres
        | some q =>
          simp [Repository.loadVersioned, hr, hf, hm1 p hr, hm2 q hf, hex] at hres
      | true =>
        rw [hload] at hres
        cases hfp : Repository.fromPath ctx
            (p.joinRel name.withoutVersion.pathSegmentsAsRepositoryName) with
        | error e =>
          cases hf : ctx.fetchedRoot with
          | none =>
            simp [Repository.loadVersioned, hr, hf, hm1 p hr, hex, hfp,
              Bind.bind, Except.bind] at hres
          | some q =>
            simp [Repository.loadVersioned, hr, hf, hm1 p hr, hm2 q hf, hex, hfp,
              Bind.bind, Except.bind] at hres
        | ok r' =>
          by_cases hvr : r'.config.version = version
          · have : r' = r := by
              cases hf : ctx.fetchedRoot with
              | none =>
                simp [Repository.loadVersioned, hr, hf, hm1 p hr, hex, hfp, hvr,
                  Bind.bind, Except.bind] at hres
                exact hres
              | some q =>
                simp [Repository.loadVersioned, hr, hf, hm1 p hr, hm2 q hf, hex, hfp,
                  hvr, Bind.bind, Except.bind] at hres
                exact hres
            exact this ▸ hvr
          · exfalso
            cases hf : ctx.fetchedRoot with
            | none =>
              simp [Repository.loadVersioned, hr, hf, hm1 p hr, hex, hfp, hvr,
                Bind.bind, Except.bind] at hres
            | some q =>
              simp [Repository.loadVersioned, hr, hf, hm1 p hr, hm2 q hf, hex, hfp,
                hvr, Bind.bind, Except.bind] at hres

/-- Loading a pinned name dispatches to the pinned branch. -/
theorem load_withVersion (ctx : Ctx) (n : Name) (v : Version) :
    Repository.load ctx (n.withVersion v) =
      Repository.loadVersioned ctx (n.withVersion v) v := rfl

/-- C3: resolving a floating name first honors a dependency pin of the
repository enclosing the working directory, recursing into pinned
resolution with that pinned version before any other lookup; only
otherwise does it try the local unversioned path, then the greatest
semantic version enumerated under the local version folder, then the
greatest version enumerated under the fetched version folder, and it
returns `Ok(None)` when all of these fail. -/
theorem c3_floating_resolution_order (ctx : Ctx) (name : Name)
    (hv : name.version = none) :
    (∀ r v, ctx.enclosing = .ok (some r) →
      alGet name r.config.dependencies = some v →
      Repository.load ctx name = Repository.load ctx (name.withVersion v))
    ∧ ((ctx.enclosing = .ok none ∨
        ∃ r, ctx.enclosing = .ok (some r) ∧ alGet name r.config.dependencies = none) →
      -- tier 2: the local unversioned path
      (∀ p, ctx.repoRoot = some p →
        ctx.fs.pathExists (p.joinRel name.pathSegmentsAsRepositoryName) = true →
        Repository.load ctx name =
          (Repository.fromPath ctx (p.joinRel name.pathSegmentsAsRepositoryName)).map some)
      ∧ ((∀ p, ctx.repoRoot = some p →
            ctx.fs.pathExists (p.joinRel name.pathSegmentsAsRepositoryName) = false) →
        -- tier 3: the greatest version under the local version folder
        (∀ p, ctx.repoRoot = some p →
          ctx.fs.pathExists (p.joinRel name.pathSegmentsAsVersionFolder) = true →
          ∀ versions,
            parseChildVersions
              (ctx.fs.children (p.joinRel name.pathSegmentsAsVersionFolder)) = .ok versions →
          ∀ v, (versions.mergeSort versionLe).getLast? = some v →
            v ∈ versions ∧ (∀ u ∈ versions, versionLe u v) ∧
              Repository.load ctx name = Repository.load ctx (name.withVersion v))
        ∧ ((∀ p, ctx.repoRoot = some p →
              ctx.fs.pathExists (p.joinRel name.pathSegmentsAsVersionFolder) = false ∨
              parseChildVersions
                (ctx.fs.children (p.joinRel name.pathSegmentsAsVersionFolder)) = .ok []) →
          -- tier 4: the greatest version under the fetched version folder
          (∀ q, ctx.fetchedRoot = some q →
            ctx.fs.pathExists (q.joinRel name.pathSegmentsAsVersionFolder) = true →
            ∀ versions,
              parseChildVersions
                (ctx.fs.children (q.joinRel name.pathSegmentsAsVersionFolder))
                = .ok versions →
            ∀ v, (versions.mergeSort versionLe).getLast? = some v →
              v ∈ versions ∧ (∀ u ∈ versions, versionLe u v) ∧
                Repository.load ctx name = Repository.load ctx (name.withVersion v))
          ∧ ((∀ q, ctx.fetchedRoot = some q →
                ctx.fs.pathExists (q.joinRel name.pathSegmentsAsVersionFolder) = false ∨
                parseChildVersions
                  (ctx.fs.children (q.joinRel name.pathSegmentsAsVersionFolder)) = .ok []) →
            Repository.load ctx name = .ok none)))) := by
  have hfl : Repository.load ctx name = Repository.loadFloating ctx name := by
    unfold Repository.load
    rw [hv]
  constructor
  · intro r v henc hget
    rw [hfl, load_withVersion]
    simp [Repository.loadFloating, henc, hget, Bind.bind, Except.bind, Option.bind]
  · intro hnd
    have hmatch : ∀ res : Except RErr (Option Repository),
        (Repository.loadFloating ctx name = res ↔
          Repository.loadFloating ctx name = res) := fun _ => Iff.rfl
    -- reduce the dependency-pin match to `none` in both shapes of `hnd`
    have hsc : ∃ encl, ctx.enclosing = .ok encl ∧
        encl.bind (fun r => alGet name r.config.dependencies) = none := by
      rcases hnd with henc | ⟨r, henc, hget⟩
      · exact ⟨none, henc, rfl⟩
      · exact ⟨some r, henc, by simp [Option.bind, hget]⟩
    rcases hsc with ⟨encl, henc, hbind⟩
    refine ⟨?_, ?_⟩
    · intro p hp hex
      rw [hfl]
      simp [Repository.loadFloating, henc, hbind, hp, hex, Bind.bind, Except.bind]
    · intro hm2
      refine ⟨?_, ?_⟩
      · intro p hp hex versions hpc v hlast
        obtain ⟨hmem, hbound⟩ := mergeSort_getLast?_max hlast
        refine ⟨hmem, hbound, ?_⟩
        rw [hfl, load_withVersion]
        simp [Repository.loadFloating, henc, hbind, hp, hm2 p hp, hex, hpc, hlast,
          Bind.bind, Except.bind]
      · intro hm3
        refine ⟨?_, ?_⟩
        · intro q hq hex versions hpc v hlast
          obtain ⟨hmem, hbound⟩ := mergeSort_getLast?_max hlast
          refine ⟨hmem, hbound, ?_⟩
          rw [hfl, load_withVersion]
          cases hr : ctx.repoRoot with
          | none =>
            simp [Repository.loadFloating, henc, hbind, hr, hq, hex, hpc, hlast,
              Bind.bind, Except.bind]
          | some p =>
            rcases hm3 p hr with hmf | hmf
            · simp [Repository.loadFloating, henc, hbind, hr, hm2 p hr, hmf, hq, hex,
                hpc, hlast, Bind.bind, Except.bind]
            · cases hex3 : ctx.fs.pathExists (p.joinRel name.pathSegmentsAsVersionFolder) with
              | false =>
                simp [Repository.loadFloating, henc, hbind, hr, hm2 p hr, hex3, hq, hex,
                  hpc, hlast, Bind.bind, Except.bind]
              | true =>
                simp [Repository.loadFloating, henc, hbind, hr, hm2 p hr, hex3, hmf, hq,
                  hex, hpc, hlast, Bind.bind, Except.bind, List.mergeSort]
        · intro hm4
          rw [hfl]
          cases hr : ctx.repoRoot with
          | none =>
            cases hf : ctx.fetchedRoot with
            | none =>
              simp [Repository.loadFloating, henc, hbind, hr, hf,
                Bind.bind, Except.bind]
            | some q =>
              rcases hm4 q hf with hmf | hmf
              · simp [Repository.loadFloating, henc, hbind, hr, hf, hmf,
                  Bind.bind, Except.bind]
              · cases hex4 : ctx.fs.pathExists (q.joinRel name.pathSegmentsAsVersionFolder) with
                | false =>
                  simp [Repository.loadFloating, henc, hbind, hr, hf, hex4,
                    Bind.bind, Except.bind]
                | true =>
                  simp [Repository.loadFloating, henc, hbind, hr, hf, hex4, hmf,
                    Bind.bind, Except.bind, List.mergeSort]
          | some p =>
            have hlocal3 :
                ctx.fs.pathExists (p.joinRel name.pathSegmentsAsVersionFolder) = false ∨
                parseChildVersions
                  (ctx.fs.children (p.joinRel name.pathSegmentsAsVersionFolder)) = .ok [] :=
              hm3 p hr
            cases hf : ctx.fetchedRoot with
            | none =>
              rcases hlocal3 with hmf | hmf
              · simp [Repository.loadFloating, henc, hbind, hr, hm2 p hr, hmf, hf,
                  Bind.bind, Except.bind]
              · cases hex3 : ctx.fs.pathExists (p.joinRel name.pathSegmentsAsVersionFolder) with
                | false =>
                  simp [Repository.loadFloating, henc, hbind, hr, hm2 p hr, hex3, hf,
                    Bind.bind, Except.bind]
                | true =>
                  simp [Repository.loadFloating, henc, hbind, hr, hm2 p hr, hex3, hmf, hf,
                    Bind.bind, Except.bind, List.mergeSort]
            | some q =>
              rcases hm4 q hf with hmf4 | hmf4
              · rcases hlocal3 with hmf | hmf
                · simp [Repository.loadFloating, henc, hbind, hr, hm2 p hr, hmf, hf, hmf4,
                    Bind.bind, Except.bind]
                · cases hex3 : ctx.fs.pathExists (p.joinRel name.pathSegmentsAsVersionFolder) with
                  | false =>
                    simp [Repository.loadFloating, henc, hbind, hr, hm2 p hr, hex3, hf,
                      hmf4, Bind.bind, Except.bind]
                  | true =>
                    simp [Repository.loadFloating, henc, hbind, hr, hm2 p hr, hex3, hmf,
                      hf, hmf4, Bind.bind, Except.bind, List.mergeSort]
              · cases hex4 : ctx.fs.pathExists (q.joinRel name.pathSegmentsAsVersionFolder) with
                | false =>
                  rcases hlocal3 with hmf | hmf
                  · simp [Repository.loadFloating, henc, hbind, hr, hm2 p hr, hmf, hf,
                      hex4, Bind.bind, Except.bind]
                  · cases hex3 : ctx.fs.pathExists (p.joinRel name.pathSegmentsAsVersionFolder) with
                    | false =>
                      simp [Repository.loadFloating, henc, hbind, hr, hm2 p hr, hex3, hf,
                        hex4, Bind.bind, Except.bind]
                    | true =>
                      simp [Repository.loadFloating, henc, hbind, hr, hm2 p hr, hex3, hmf,
                        hf, hex4, Bind.bind, Except.bind, List.mergeSort]
                | true =>
                  rcases hlocal3 with hmf | hmf
                  · simp [Repository.loadFloating, henc, hbind, hr, hm2 p hr, hmf, hf,
                      hex4, hmf4, Bind.bind, Except.bind, List.mergeSort]
                  · cases hex3 : ctx.fs.pathExists (p.joinRel name.pathSegmentsAsVersionFolder) with
                    | false =>
                      simp [Repository.loadFloating, henc, hbind, hr, hm2 p hr, hex3, hf,
                        hex4, hmf4, Bind.bind, Except.bind, List.mergeSort]
                    | true =>
                      simp [Repository.loadFloating, henc, hbind, hr, hm2 p hr, hex3, hmf,
                        hf, hex4, hmf4, Bind.bind, Except.bind, List.mergeSort]

/-! ### A concrete storage context for the witnesses -/

def wRepoRoot : FsPath := ⟨true, ["r".data]⟩

def wFetchedRoot : FsPath := ⟨true, ["f".data]⟩

def wToml (segs : List Str) (v : Version) (deps : Option (List (Name × Version))) :
    TomlConfig0_3_0 :=
  ⟨default, ⟨⟨segs, none⟩, v, none⟩, none, deps, none, none⟩

def wPathA1 : FsPath := ⟨true, ["r".data, "__a".data, "1.0.0".data]⟩

def wPathB : FsPath := ⟨true, ["r".data, "__b".data, "1.0.0".data]⟩

def wPathC : FsPath := ⟨true, ["r".data, "__c".data, "2.0.0".data]⟩

def wFs : Fs :=
  ⟨fun p => decide (p = wPathA1 ∨ p = wPathB ∨ p = wPathC),
   fun p =>
     if p = wPathB then
       .ok (.v0_3_0 (wToml ["b".data] (Version.new 1 0 0)
         (some [(⟨["c".data], none⟩, Version.new 2 0 0)])))
     else if p = wPathC then
       .ok (.v0_3_0 (wToml ["c".data] (Version.new 2 0 0) none))
     else
       .ok (.v0_3_0 (wToml ["a".data] (Version.new 1 0 0) none)),
   fun _ => []⟩

def wCtx : Ctx := ⟨some wRepoRoot, some wFetchedRoot, wFs, .ok none⟩

def wDepRepo : Repository :=
  ⟨⟨true, ["w".data]⟩,
    ⟨⟨["w".data], none⟩, Version.new 0 1 0, none, [],
      [(⟨["a".data], none⟩, Version.new 1 0 0)], [], []⟩,
    ⟨["w".data], none⟩⟩

def wCtxDep : Ctx := ⟨some wRepoRoot, some wFetchedRoot, wFs, .ok (some wDepRepo)⟩

def wRepoA : Repository :=
  ⟨⟨true, ["r".data, "a".data]⟩,
    ⟨⟨["a".data], none⟩, Version.new 0 1 0, none, [],
      [(⟨["b".data], none⟩, Version.new 1 0 0)], [], []⟩,
    ⟨["a".data], none⟩⟩

/-- Witness for C2: a pinned name whose local versioned path exists
resolves to that copy. -/
theorem c2_pinned_resolution_order_witness :
    Repository.load wCtx ⟨["a".data], some (Version.new 1 0 0)⟩ =
      (Repository.fromPath wCtx
        (wRepoRoot.joinRel
          (Name.pathSegmentsAsRepositoryName
            ⟨["a".data], some (Version.new 1 0 0)⟩))).map some :=
  (c2_pinned_resolution_order wCtx ⟨["a".data], some (Version.new 1 0 0)⟩
      (Version.new 1 0 0) rfl).1 wRepoRoot rfl (by decide)

/-- Witness for C3: the enclosing repository's dependency pin drives the
floating resolution into pinned resolution. -/
theorem c3_floating_resolution_order_witness :
    Repository.load wCtxDep ⟨["a".data], none⟩ =
      Repository.load wCtxDep
        (Name.withVersion ⟨["a".data], none⟩ (Version.new 1 0 0)) :=
  (c3_floating_resolution_order wCtxDep ⟨["a".data], none⟩ rfl).1 wDepRepo
    (Version.new 1 0 0) rfl (by decide)

/-! ### The dependency closure (C4) -/

/-- Transitive reachability of a dependency pair from a dependency list,
through the resolver: the pairs the builder's recursion can visit. -/
inductive ReachFrom (ctx : Ctx) : List (Name × Version) → Name × Version → Prop where
  | here {deps dep} : dep ∈ deps → ReachFrom ctx deps dep
  | there {deps dep r x} : dep ∈ deps →
      Repository.load ctx (dep.1.withVersion dep.2) = .ok (some r) →
      ReachFrom ctx r.config.dependencies x → ReachFrom ctx deps x

theorem ReachFrom.mono (ctx : Ctx) {rest : List (Name × Version)}
    {x dep : Name × Version} (h : ReachFrom ctx rest x) :
    ReachFrom ctx (dep :: rest) x := by
  cases h with
  | here hm => exact .here (List.mem_cons_of_mem _ hm)
  | there hm hl hsub => exact .there (List.mem_cons_of_mem _ hm) hl hsub

theorem insertSet_nodup {α : Type} [DecidableEq α] {x : α} {l : List α}
    (h : l.Nodup) : (insertSet x l).Nodup := by
  unfold insertSet
  split
  · exact h
  · exact List.nodup_cons.mpr ⟨by assumption, h⟩

theorem addDepsLoop_nodup (ctx : Ctx)
    (recurse : List (Name × Version) → List (Name × Version) →
      Except RErr (List (Name × Version)))
    (hrec : ∀ deps out res, out.Nodup → recurse deps out = .ok res → res.Nodup) :
    ∀ deps out res, out.Nodup → addDepsLoop ctx recurse deps out = .ok res →
      res.Nodup := by
  intro deps
  induction deps with
  | nil =>
    intro out res hnd h
    simp only [addDepsLoop] at h
    cases h
    exact hnd
  | cons dep rest ih =>
    intro out res hnd h
    simp only [addDepsLoop] at h
    by_cases hmem : dep ∈ out
    · rw [if_pos hmem] at h
      exact ih out res hnd h
    · rw [if_neg hmem] at h
      cases hl : Repository.load ctx (dep.1.withVersion dep.2) with
      | error e => simp [hl] at h
      | ok o =>
        cases o with
        | none => simp [hl] at h
        | some depRepo =>
          simp only [hl] at h
          cases h2 : recurse depRepo.config.dependencies out with
          | error e => simp [h2] at h
          | ok out2 =>
            simp only [h2] at h
            exact ih _ res (insertSet_nodup (hrec _ _ _ hnd h2)) h

theorem addDepsAux_nodup (ctx : Ctx) :
    ∀ fuel deps out res, out.Nodup → addDepsAux ctx fuel deps out = .ok res →
      res.Nodup := by
  intro fuel
  induction fuel with
  | zero =>
    intro deps out res hnd h
    simp [addDepsAux] at h
  | succ f ihf =>
    intro deps out res hnd h
    exact addDepsLoop_nodup ctx (addDepsAux ctx f)
      (fun d o r => ihf d o r) deps out res hnd h

theorem addDepsLoop_sound (ctx : Ctx)
    (recurse : List (Name × Version) → List (Name × Version) →
      Except RErr (List (Name × Version)))
    (hrec : ∀ deps out res, recurse deps out = .ok res →
      ∀ x ∈ res, x ∈ out ∨ ReachFrom ctx deps x) :
    ∀ deps out res, addDepsLoop ctx recurse deps out = .ok res →
      ∀ x ∈ res, x ∈ out ∨ ReachFrom ctx deps x := by
  intro deps
  induction deps with
  | nil =>
    intro out res h x hx
    simp only [addDepsLoop] at h
    cases h
    exact Or.inl hx
  | cons dep rest ih =>
    intro out res h x hx
    simp only [addDepsLoop] at h
    by_cases hmem : dep ∈ out
    · rw [if_pos hmem] at h
      rcases ih out res h x hx with hi | hi
      · exact Or.inl hi
      · exact Or.inr (ReachFrom.mono ctx hi)
    · rw [if_neg hmem] at h
      cases hl : Repository.load ctx (dep.1.withVersion dep.2) with
      | error e => simp [hl] at h
      | ok o =>
        cases o with
        | none => simp [hl] at h
        | some depRepo =>
          simp only [hl] at h
          cases h2 : recurse depRepo.config.dependencies out with
          | error e => simp [h2] at h
          | ok out2 =>
            simp only [h2] at h
            rcases ih _ res h x hx with hi | hi
            · have hx2 : x = dep ∨ x ∈ out2 := by
                unfold insertSet at hi
                split at hi
                · exact Or.inr hi
                · exact List.mem_cons.mp hi
              rcases hx2 with rfl | hx2
              · exact Or.inr (.here (List.mem_cons_self _ _))
              · rcases hrec _ _ _ h2 x hx2 with hi2 | hi2
                · exact Or.inl hi2
                · exact Or.inr (.there (List.mem_cons_self _ _) hl hi2)
            · exact Or.inr (ReachFrom.mono ctx hi)

theorem addDepsAux_sound (ctx : Ctx) :
    ∀ fuel deps out res, addDepsAux ctx fuel deps out = .ok res →
      ∀ x ∈ res, x ∈ out ∨ ReachFrom ctx deps x := by
  intro fuel
  induction fuel with
  | zero =>
    intro deps out res h
    simp [addDepsAux] at h
  | succ f ihf =>
    intro deps out res h
    exact addDepsLoop_sound ctx (addDepsAux ctx f) (fun d o r => ihf d o r)
      deps out res h

/-- C4: on the concrete instance `A → B@1.0.0 → C@2.0.0` (stored under the
local versioned root), the builder returns exactly the de-duplicated set
`{(B,1.0.0), (C,2.0.0)}`; in general every successful output is duplicate
free (a repeated or diamond dependency appears exactly once) and contains
only pairs reachable through the dependency relation of the starting
repository. -/
theorem c4_transitive_dependency_closure :
    (recursedRepositoryDepsOf wCtx 3 wRepoA =
        .ok [(⟨["b".data], none⟩, Version.new 1 0 0),
             (⟨["c".data], none⟩, Version.new 2 0 0)]
      ∧ ([(⟨["b".data], none⟩, Version.new 1 0 0),
          (⟨["c".data], none⟩, Version.new 2 0 0)] : List (Name × Version)).Perm
          ([(⟨["b".data], none⟩, Version.new 1 0 0),
            (⟨["c".data], none⟩, Version.new 2 0 0)] : List (Name × Version)))
    ∧ (∀ (ctx : Ctx) (fuel : Nat) (repository : Repository) (res : List (Name × Version)),
        recursedRepositoryDepsOf ctx fuel repository = .ok res →
        res.Nodup ∧ ∀ x ∈ res, ReachFrom ctx repository.config.dependencies x) := by
  refine ⟨⟨by decide, List.Perm.refl _⟩, ?_⟩
  intro ctx fuel repository res h
  refine ⟨addDepsAux_nodup ctx fuel _ _ res List.nodup_nil h, fun x hx => ?_⟩
  rcases addDepsAux_sound ctx fuel _ _ res h x hx with hi | hi
  · exact absurd hi (List.not_mem_nil x)
  · exact hi

/-- Witness for C4: the general part applied to the concrete instance. -/
theorem c4_transitive_dependency_closure_witness :
    ([(⟨["b".data], none⟩, Version.new 1 0 0),
      (⟨["c".data], none⟩, Version.new 2 0 0)] : List (Name × Version)).Nodup :=
  ((c4_transitive_dependency_closure.2 wCtx 3 wRepoA _
    c4_transitive_dependency_closure.1.1)).1

/-! ### The ignore-file managed block (C7) -/

theorem findIdx?_decomp {α : Type} {p : α → Bool} {L : List α} {i : Nat}
    (h : L.findIdx? p = some i) :
    ∃ L₁ x L₂, L = L₁ ++ x :: L₂ ∧ L₁.length = i ∧ p x = true ∧
      ∀ y ∈ L₁, p y = false := by
  rw [List.findIdx?_eq_some_iff_findIdx_eq] at h
  obtain ⟨hlt, hidx⟩ := h
  refine ⟨L.take i, L[i], L.drop (i + 1), ?_, ?_, ?_, ?_⟩
  · conv_lhs => rw [← List.take_append_drop i L]
    rw [List.drop_eq_getElem_cons hlt]
  · simpa using Nat.le_of_lt hlt
  · have := @List.findIdx_getElem _ p L (hidx ▸ hlt)
    simpa [hidx] using this
  · intro y hy
    obtain ⟨j, hj, rfl⟩ := List.getElem_of_mem hy
    have hj' : j < i := by
      have := hj
      simp at this
      exact this.1
    have := @List.not_of_lt_findIdx _ p L j (hidx ▸ hj')
    simpa [List.getElem_take] using this

theorem findIdx?_append_cons {α : Type} {p : α → Bool} {L₁ : List α} {x : α}
    (L₂ : List α) (h1 : ∀ y ∈ L₁, p y = false) (hx : p x = true) :
    (L₁ ++ x :: L₂).findIdx? p = some L₁.length := by
  rw [List.findIdx?_append, List.findIdx?_eq_none_iff.mpr h1]
  simp [List.findIdx?_cons, hx]

theorem eraseIdx_append_cons {α : Type} (L₁ : List α) (x : α) (L₂ : List α) :
    (L₁ ++ x :: L₂).eraseIdx L₁.length = L₁ ++ L₂ := by
  induction L₁ with
  | nil => rfl
  | cons a as ih => simpa using ih

theorem insertIdx_append_cons {α : Type} (L₁ : List α) (x y : α) (L₂ : List α) :
    (L₁ ++ x :: L₂).insertIdx (L₁.length + 1) y = L₁ ++ x :: y :: L₂ := by
  induction L₁ with
  | nil => rfl
  | cons a as ih => simpa [List.insertIdx_succ_cons] using ih

theorem getElem?_append_cons {α : Type} (L₁ : List α) (x : α) (L₂ : List α) :
    (L₁ ++ x :: L₂)[L₁.length]? = some x := by
  rw [List.getElem?_append_right (Nat.le_refl _)]
  simp

theorem joinLines_splitLines (c : Str) : joinLines (splitLines c) = c :=
  joinSep_splitSep '\n' c

theorem splitLines_joinLines {L : List Str} (h1 : L ≠ [])
    (h2 : ∀ l ∈ L, '\n' ∉ l) : splitLines (joinLines L) = L :=
  splitSep_joinSep '\n' L h1 h2

theorem addContent_of_noBlock {c : Str} (p : Str)
    (hnb : beginSentinel ∉ splitLines c) :
    addPathToGitignoreContent c p =
      joinLines (splitLines c ++ [beginSentinel, p, endSentinel]) := by
  have hfind : (splitLines c).findIdx? (fun v => v = beginSentinel) = none :=
    List.findIdx?_eq_none_iff.mpr
      (fun x hx => decide_eq_false (fun heq => hnb (heq ▸ hx)))
  simp [addPathToGitignoreContent, hfind]

theorem addContent_of_block {c : Str} (p : Str) {i : Nat}
    (hfind : (splitLines c).findIdx? (fun v => v = beginSentinel) = some i) :
    ∃ L₁ L₂, splitLines c = L₁ ++ beginSentinel :: L₂ ∧ L₁.length = i ∧
      beginSentinel ∉ L₁ ∧
      addPathToGitignoreContent c p = joinLines (L₁ ++ beginSentinel :: p :: L₂) := by
  obtain ⟨L₁, x, L₂, hdec, hlen, hpx, hfree⟩ := findIdx?_decomp hfind
  have hx : x = beginSentinel := of_decide_eq_true hpx
  subst hx
  refine ⟨L₁, L₂, hdec, hlen, fun hm => by simpa using hfree _ hm, ?_⟩
  simp only [addPathToGitignoreContent, hfind]
  rw [hdec, ← hlen, insertIdx_append_cons]

theorem removeContent_of_noBegin {c : Str} (q : Str)
    (hfind : (splitLines c).findIdx? (fun v => v = beginSentinel) = none) :
    removePathFromGitignoreContent c q = c := by
  simp [removePathFromGitignoreContent, hfind, joinLines_splitLines]

theorem removeContent_frame {c : Str} (q : Str) {i : Nat}
    (hfind : (splitLines c).findIdx? (fun v => v = beginSentinel) = some i) :
    removePathFromGitignoreContent c q = c ∨
      ∃ j, i ≤ j ∧ (splitLines c)[j]? = some q ∧
        (∀ m, i ≤ m → m < j → ¬ ((splitLines c)[m]? = some endSentinel)) ∧
        removePathFromGitignoreContent c q = joinLines ((splitLines c).eraseIdx j) := by
  cases hinner : ((splitLines c).drop i).findIdx? (fun v => v = q || v = endSentinel) with
  | none =>
    left
    simp [removePathFromGitignoreContent, hfind, hinner, joinLines_splitLines]
  | some k =>
    have hinner' := hinner
    rw [List.findIdx?_eq_some_iff_findIdx_eq] at hinner'
    obtain ⟨hk, hkidx⟩ := hinner'
    have hlen : i + k < (splitLines c).length := by
      have := hk
      simp [List.length_drop] at this
      omega
    have hval : ((splitLines c).drop i)[k] = (splitLines c)[i + k] :=
      List.getElem_drop _
    have hpred := @List.findIdx_getElem _ (fun v => v = q || v = endSentinel)
      ((splitLines c).drop i) (hkidx ▸ hk)
    simp only [hkidx] at hpred
    rw [hval] at hpred
    have hget? : (splitLines c)[i + k]? = some ((splitLines c)[i + k]) :=
      List.getElem?_eq_getElem hlen
    by_cases hv : (splitLines c)[i + k] = endSentinel
    · left
      simp only [removePathFromGitignoreContent, hfind, hinner, hget?]
      rw [if_pos hv]
    · right
      have hq : (splitLines c)[i + k] = q := by
        have := hpred
        simp [hv] at this
        exact this
      refine ⟨i + k, Nat.le_add_right i k, by rw [hget?, hq], ?_, ?_⟩
      · intro m him hmlt hcontra
        have hmk : m - i < k := by omega
        have hmlen : m - i < ((splitLines c).drop i).length := by
          simp [List.length_drop]
          omega
        have hnm := @List.not_of_lt_findIdx _ (fun v => v = q || v = endSentinel)
          ((splitLines c).drop i) (m - i) (hkidx ▸ hmk)
        have hmlen' : m < (splitLines c).length := by omega
        have hdm : ((splitLines c).drop i)[m - i] = (splitLines c)[m] := by
          rw [List.getElem_drop]
          congr 1
          omega
        rw [hdm] at hnm
        simp at hnm
        rw [List.getElem?_eq_getElem hmlen'] at hcontra
        exact hnm.2 (Option.some.inj hcontra)
      · simp only [removePathFromGitignoreContent, hfind, hinner, hget?]
        rw [if_neg hv]

theorem removeAdd_of_noBlock {c p : Str} (hp1 : '\n' ∉ p) (hp2 : p ≠ endSentinel)
    (hnb : beginSentinel ∉ splitLines c) :
    removePathFromGitignoreContent (addPathToGitignoreContent c p) p =
      joinLines (splitLines c ++ [beginSentinel, endSentinel]) := by
  rw [addContent_of_noBlock p hnb]
  have hsf : ∀ l ∈ splitLines c ++ [beginSentinel, p, endSentinel], '\n' ∉ l := by
    intro l hl
    rcases List.mem_append.mp hl with h | h
    · exact splitSep_sepFree '\n' c l h
    · simp only [List.mem_cons, List.not_mem_nil, or_false] at h
      rcases h with rfl | rfl | rfl
      · decide
      · exact hp1
      · decide
  have hsplit :
      splitLines (joinLines (splitLines c ++ [beginSentinel, p, endSentinel])) =
        splitLines c ++ [beginSentinel, p, endSentinel] :=
    splitLines_joinLines (by simp) hsf
  have hfree : ∀ y ∈ splitLines c, decide (y = beginSentinel) = false :=
    fun y hy => decide_eq_false (fun he => hnb (he ▸ hy))
  have hfind :
      (splitLines c ++ [beginSentinel, p, endSentinel]).findIdx?
        (fun v => v = beginSentinel) = some (splitLines c).length :=
    findIdx?_append_cons [p, endSentinel] hfree (by simp)
  have hdrop :
      (splitLines c ++ [beginSentinel, p, endSentinel]).drop (splitLines c).length =
        [beginSentinel, p, endSentinel] := List.drop_left _ _
  by_cases hpb : p = beginSentinel
  · have hinner :
        ([beginSentinel, p, endSentinel] : List Str).findIdx?
          (fun v => v = p || v = endSentinel) = some 0 := by
      simp [List.findIdx?_cons, hpb]
    have hget :
        (splitLines c ++ [beginSentinel, p, endSentinel])[(splitLines c).length + 0]? =
          some beginSentinel := by
      simpa using getElem?_append_cons (splitLines c) beginSentinel [p, endSentinel]
    have herase :
        (splitLines c ++ [beginSentinel, p, endSentinel]).eraseIdx
          ((splitLines c).length + 0) = splitLines c ++ [p, endSentinel] := by
      simpa using eraseIdx_append_cons (splitLines c) beginSentinel [p, endSentinel]
    simp only [removePathFromGitignoreContent, hsplit, hfind, hdrop, hinner, hget]
    rw [if_neg (by decide : ¬ beginSentinel = endSentinel), herase, hpb]
  · have hinner :
        ([beginSentinel, p, endSentinel] : List Str).findIdx?
          (fun v => v = p || v = endSentinel) = some 1 := by
      have h1 : decide (beginSentinel = p) = false :=
        decide_eq_false (fun he => hpb he.symm)
      have h2 : decide (beginSentinel = endSentinel) = false := by decide
      simp [List.findIdx?_cons, h1, h2]
    have hget :
        (splitLines c ++ [beginSentinel, p, endSentinel])[(splitLines c).length + 1]? =
          some p := by
      have h := getElem?_append_cons (splitLines c ++ [beginSentinel]) p [endSentinel]
      simpa [List.append_assoc] using h
    have herase :
        (splitLines c ++ [beginSentinel, p, endSentinel]).eraseIdx
          ((splitLines c).length + 1) = splitLines c ++ [beginSentinel, endSentinel] := by
      have h := eraseIdx_append_cons (splitLines c ++ [beginSentinel]) p [endSentinel]
      simpa [List.append_assoc] using h
    simp only [removePathFromGitignoreContent, hsplit, hfind, hdrop, hinner, hget]
    rw [if_neg hp2, herase]

theorem removeAdd_of_block {c p : Str} (hp1 : '\n' ∉ p) (hp2 : p ≠ endSentinel)
    {i : Nat} (hfind : (splitLines c).findIdx? (fun v => v = beginSentinel) = some i) :
    removePathFromGitignoreContent (addPathToGitignoreContent c p) p = c := by
  obtain ⟨L₁, L₂, hdec, hlen, hnb1, haddeq⟩ := addContent_of_block p hfind
  rw [haddeq]
  have hsub : ∀ l, l ∈ L₁ ∨ l ∈ L₂ → l ∈ splitLines c := by
    intro l hl
    rw [hdec]
    rcases hl with h | h
    · exact List.mem_append.mpr (Or.inl h)
    · exact List.mem_append.mpr (Or.inr (List.mem_cons_of_mem _ h))
  have hsf : ∀ l ∈ L₁ ++ beginSentinel :: p :: L₂, '\n' ∉ l := by
    intro l hl
    rcases List.mem_append.mp hl with h | h
    · exact splitSep_sepFree '\n' c l (hsub l (Or.inl h))
    · simp only [List.mem_cons] at h
      rcases h with rfl | rfl | h
      · decide
      · exact hp1
      · exact splitSep_sepFree '\n' c l (hsub l (Or.inr h))
  have hsplit :
      splitLines (joinLines (L₁ ++ beginSentinel :: p :: L₂)) =
        L₁ ++ beginSentinel :: p :: L₂ :=
    splitLines_joinLines (by simp) hsf
  have hfree : ∀ y ∈ L₁, decide (y = beginSentinel) = false :=
    fun y hy => decide_eq_false (fun he => hnb1 (he ▸ hy))
  have hfind' :
      (L₁ ++ beginSentinel :: p :: L₂).findIdx? (fun v => v = beginSentinel) =
        some L₁.length :=
    findIdx?_append_cons (p :: L₂) hfree (by simp)
  have hdrop :
      (L₁ ++ beginSentinel :: p :: L₂).drop L₁.length = beginSentinel :: p :: L₂ :=
    List.drop_left _ _
  by_cases hpb : p = beginSentinel
  · have hinner :
        (beginSentinel :: p :: L₂).findIdx? (fun v => v = p || v = endSentinel) =
          some 0 := by
      simp [List.findIdx?_cons, hpb]
    have hget :
        (L₁ ++ beginSentinel :: p :: L₂)[L₁.length + 0]? = some beginSentinel := by
      simpa using getElem?_append_cons L₁ beginSentinel (p :: L₂)
    have herase :
        (L₁ ++ beginSentinel :: p :: L₂).eraseIdx (L₁.length + 0) = L₁ ++ p :: L₂ := by
      simpa using eraseIdx_append_cons L₁ beginSentinel (p :: L₂)
    simp only [removePathFromGitignoreContent, hsplit, hfind', hdrop, hinner, hget]
    rw [if_neg (by decide : ¬ beginSentinel = endSentinel), herase, hpb, ← hdec,
      joinLines_splitLines]
  · have hinner :
        (beginSentinel :: p :: L₂).findIdx? (fun v => v = p || v = endSentinel) =
          some 1 := by
      have h1 : decide (beginSentinel = p) = false :=
        decide_eq_false (fun he => hpb he.symm)
      have h2 : decide (beginSentinel = endSentinel) = false := by decide
      simp [List.findIdx?_cons, h1, h2]
    have hget : (L₁ ++ beginSentinel :: p :: L₂)[L₁.length + 1]? = some p := by
      have h := getElem?_append_cons (L₁ ++ [beginSentinel]) p L₂
      simpa [List.append_assoc] using h
    have herase :
        (L₁ ++ beginSentinel :: p :: L₂).eraseIdx (L₁.length + 1) =
          L₁ ++ beginSentinel :: L₂ := by
      have h := eraseIdx_append_cons (L₁ ++ [beginSentinel]) p L₂
      simpa [List.append_assoc] using h
    simp only [removePathFromGitignoreContent, hsplit, hfind', hdrop, hinner, hget]
    rw [if_neg hp2, herase, ← hdec, joinLines_splitLines]

/-- C7 counterexample: when the added path line is itself equal to the end
sentinel line, the removal search hits the end-sentinel check first and
returns without deleting anything, so add-then-remove does not restore the
file to "original plus empty managed block" — the added line stays. -/
theorem c7_counterexample_path_is_end_sentinel :
    removePathFromGitignoreContent
        (addPathToGitignoreContent [] endSentinel) endSentinel ≠
      joinLines (splitLines ([] : Str) ++ [beginSentinel, endSentinel])
    ∧ removePathFromGitignoreContent
        (addPathToGitignoreContent [] endSentinel) endSentinel =
      joinLines [[], beginSentinel, endSentinel, endSentinel] := by
  constructor
  · decide
  · decide

/-- C7 (amended): provided the rendered target path is a single line (no
newline) and differs from the end sentinel line, `add_path_to_gitignore`
followed by `remove_path_from_gitignore` for the same path restores the
ignore file byte-identically — except that when no managed block existed,
the now-empty block's begin/end sentinel lines remain.  Moreover neither
operation touches lines outside the managed block: add inserts exactly the
path line right after the first begin sentinel (or appends a fresh
three-line block at the end), and remove either leaves the file unchanged
or deletes exactly one line at or after the begin sentinel with no end
sentinel strictly before it — the search stops at the end sentinel, so a
matching line after the block is never deleted. -/
theorem c7_ignore_block_roundtrip_amended (c p : Str)
    (hp1 : '\n' ∉ p) (hp2 : p ≠ endSentinel) :
    (beginSentinel ∉ splitLines c →
      removePathFromGitignoreContent (addPathToGitignoreContent c p) p =
        joinLines (splitLines c ++ [beginSentinel, endSentinel]))
    ∧ (∀ i, (splitLines c).findIdx? (fun v => v = beginSentinel) = some i →
        removePathFromGitignoreContent (addPathToGitignoreContent c p) p = c)
    ∧ (beginSentinel ∉ splitLines c →
        addPathToGitignoreContent c p =
          joinLines (splitLines c ++ [beginSentinel, p, endSentinel]))
    ∧ (∀ i, (splitLines c).findIdx? (fun v => v = beginSentinel) = some i →
        ∃ L₁ L₂, splitLines c = L₁ ++ beginSentinel :: L₂ ∧ L₁.length = i ∧
          beginSentinel ∉ L₁ ∧
          addPathToGitignoreContent c p = joinLines (L₁ ++ beginSentinel :: p :: L₂))
    ∧ (∀ (q : Str) (i : Nat),
        (splitLines c).findIdx? (fun v => v = beginSentinel) = some i →
        removePathFromGitignoreContent c q = c ∨
          ∃ j, i ≤ j ∧ (splitLines c)[j]? = some q ∧
            (∀ m, i ≤ m → m < j → ¬ ((splitLines c)[m]? = some endSentinel)) ∧
            removePathFromGitignoreContent c q = joinLines ((splitLines c).eraseIdx j))
    ∧ (∀ q, (splitLines c).findIdx? (fun v => v = beginSentinel) = none →
        removePathFromGitignoreContent c q = c) :=
  ⟨fun hnb => removeAdd_of_noBlock hp1 hp2 hnb,
   fun _ hf => removeAdd_of_block hp1 hp2 hf,
   fun hnb => addContent_of_noBlock p hnb,
   fun _ hf => addContent_of_block p hf,
   fun q _ hf => removeContent_frame q hf,
   fun q hf => removeContent_of_noBegin q hf⟩

/-- Witness for C7 (amended) on a one-line file and an ordinary path. -/
theorem c7_ignore_block_roundtrip_amended_witness :
    removePathFromGitignoreContent
        (addPathToGitignoreContent ("keep".data ++ ['\n']) "target".data)
        "target".data =
      joinLines (splitLines ("keep".data ++ ['\n']) ++ [beginSentinel, endSentinel]) :=
  (c7_ignore_block_roundtrip_amended ("keep".data ++ ['\n']) "target".data
    (by decide) (by decide)).1 (by decide)

end Batl
